import Mathlib

/-!
Shallow embedding of the extraction-to-knowledge-graph pipeline of this
repository and proofs about it.

The embedded code lives in
`src/app/api/projects/[id]/documents/[docId]/extract/route.ts` (chunker,
per-chunk provider loop, result parsing, materialization of entities /
edges / insights / territories / agents, document status handling), in the
territory read route (territory deduplication, `dedup`) and in the agent
tree view (`deduplicateAgents`).

Modelling conventions:
* JavaScript strings are Lean `String`s; `.length` agrees with JS for the
  ASCII inputs used throughout (JS counts UTF-16 units).
* Database ids are `Nat`, allocated from a running counter (the store
  allocates fresh ids per created row; ids are nonempty strings in the
  store and hence always truthy, so JS truthiness tests on ids are
  modelled as `Option.isSome`).
* `Date` values are modelled as `Nat` timestamps; `new Date(a) > new
  Date(b)` becomes `b < a`.
* `JSON.parse` is modelled by an executable recursive-descent parser.
  Model restrictions (none of which any theorem touches): numeric
  literals are restricted to optionally signed integers, and the string
  escapes are the single-character ones (no white `u` hex escapes).
-/

/-- JSON values as produced by `JSON.parse`. Numbers are modelled as
integers (see the file header). -/
inductive Json where
  | null : Json
  | bool : Bool → Json
  | num : Int → Json
  | str : String → Json
  | arr : List Json → Json
  | obj : List (String × Json) → Json

/-- The left-brace character. -/
def lb : Char := Char.ofNat 123

/-- The right-brace character. -/
def rb : Char := Char.ofNat 125

/-- JSON whitespace, as accepted by `JSON.parse`. -/
def isJsonWs (c : Char) : Bool :=
  c = ' ' || c = '\t' || c = '\n' || c = '\r'

/-- Drop leading JSON whitespace. -/
def skipWs : List Char → List Char
  | [] => []
  | c :: cs => if isJsonWs c then skipWs cs else c :: cs

/-- Single-character string escapes of JSON. -/
def escChar (c : Char) : Option Char :=
  if c = '"' then some '"'
  else if c = '\\' then some '\\'
  else if c = '/' then some '/'
  else if c = 'b' then some (Char.ofNat 8)
  else if c = 'f' then some (Char.ofNat 12)
  else if c = 'n' then some '\n'
  else if c = 'r' then some '\r'
  else if c = 't' then some '\t'
  else none

/-- Parse the body of a JSON string literal (the opening quote already
consumed); returns the decoded characters and the rest of the input. -/
def parseStrAux : List Char → Option (List Char × List Char)
  | [] => none
  | c :: rest =>
    if c = '"' then some ([], rest)
    else if c = '\\' then
      match rest with
      | [] => none
      | e :: rest2 =>
        match escChar e with
        | none => none
        | some ec => (parseStrAux rest2).map (fun p => (ec :: p.1, p.2))
    else (parseStrAux rest).map (fun p => (c :: p.1, p.2))

/-- Numeric value of a run of decimal digits. -/
def digitsVal : List Char → Nat → Nat
  | [], acc => acc
  | c :: cs, acc => digitsVal cs (acc * 10 + (c.toNat - 48))

/-- Parse an (optionally signed) integer numeral. -/
def parseNum (cs : List Char) : Option (Json × List Char) :=
  match cs with
  | '-' :: rest =>
    let ds := rest.takeWhile Char.isDigit
    if ds.isEmpty then none
    else some (Json.num (-(digitsVal ds 0 : Int)), rest.dropWhile Char.isDigit)
  | _ =>
    let ds := cs.takeWhile Char.isDigit
    if ds.isEmpty then none
    else some (Json.num (digitsVal ds 0 : Int), cs.dropWhile Char.isDigit)

/-- Parse the items of a JSON array after the first item position, given a
value parser `pv`; fuel bounds the number of items. -/
def parseItemsAux (pv : List Char → Option (Json × List Char)) :
    Nat → List Char → Option (List Json × List Char)
  | 0, _ => none
  | fuel + 1, cs =>
    match pv cs with
    | none => none
    | some (v, r) =>
      match skipWs r with
      | ',' :: r2 =>
        (parseItemsAux pv fuel (skipWs r2)).map (fun p => (v :: p.1, p.2))
      | ']' :: r2 => some ([v], r2)
      | _ => none

/-- Parse the fields of a JSON object after the first field position. -/
def parseFieldsAux (pv : List Char → Option (Json × List Char)) :
    Nat → List Char → Option (List (String × Json) × List Char)
  | 0, _ => none
  | fuel + 1, cs =>
    match cs with
    | '"' :: rest =>
      match parseStrAux rest with
      | none => none
      | some (k, r) =>
        match skipWs r with
        | ':' :: r2 =>
          match pv (skipWs r2) with
          | none => none
          | some (v, r3) =>
            match skipWs r3 with
            | ',' :: r4 =>
              (parseFieldsAux pv fuel (skipWs r4)).map
                (fun p => ((String.mk k, v) :: p.1, p.2))
            | c :: r4 =>
              if c = rb then some ([(String.mk k, v)], r4) else none
            | _ => none
        | _ => none
    | _ => none

/-- Fuel-indexed JSON value parser (recursive descent). -/
def parseVal : Nat → List Char → Option (Json × List Char)
  | 0, _ => none
  | fuel + 1, cs0 =>
    let cs := skipWs cs0
    match cs with
    | 'n' :: 'u' :: 'l' :: 'l' :: rest => some (Json.null, rest)
    | 't' :: 'r' :: 'u' :: 'e' :: rest => some (Json.bool true, rest)
    | 'f' :: 'a' :: 'l' :: 's' :: 'e' :: rest => some (Json.bool false, rest)
    | '"' :: rest =>
      (parseStrAux rest).map (fun p => (Json.str (String.mk p.1), p.2))
    | '[' :: rest =>
      match skipWs rest with
      | ']' :: r => some (Json.arr [], r)
      | cs2 => (parseItemsAux (parseVal fuel) fuel cs2).map
          (fun p => (Json.arr p.1, p.2))
    | c :: rest =>
      if c = lb then
        match skipWs rest with
        | c2 :: r =>
          if c2 = rb then some (Json.obj [], r)
          else (parseFieldsAux (parseVal fuel) fuel (c2 :: r)).map
              (fun p => (Json.obj p.1, p.2))
        | [] => none
      else parseNum (c :: rest)
    | [] => none

/-- `JSON.parse`: parse a complete JSON document (only trailing whitespace
may remain). -/
def jsonParse (s : String) : Option Json :=
  match parseVal (2 * s.length + 2) s.data with
  | some (v, r) => if skipWs r = [] then some v else none
  | none => none

/-- Index of the first occurrence of `c`. -/
def firstIdxOf (c : Char) (cs : List Char) : Option Nat :=
  match cs with
  | [] => none
  | x :: xs =>
    if x = c then some 0 else (firstIdxOf c xs).map (· + 1)

/-- Index of the last occurrence of `c`. -/
def lastIdxOf (c : Char) (cs : List Char) : Option Nat :=
  match cs with
  | [] => none
  | x :: xs =>
    match lastIdxOf c xs with
    | some i => some (i + 1)
    | none => if x = c then some 0 else none

/-- The substring match of the source's regular expression
`/\x7b[\s\S]*\x7d/` against `t`: the regex engine anchors at the first
left brace and the greedy `[\s\S]*` backtracks to the last right brace of
the whole text, so the match is the slice from the first left brace to the
last right brace, provided the latter lies strictly after the former (if
the last right brace sits at or before the first left brace, then no left
brace has any right brace after it, and there is no match at all). -/
def extractGreedy (t : String) : Option String :=
  let cs := t.data
  match firstIdxOf lb cs, lastIdxOf rb cs with
  | some i, some j =>
    if i < j then some (String.mk ((cs.drop i).take (j - i + 1))) else none
  | _, _ => none

/-- Scan a balanced brace block starting at a left brace, tracking depth. -/
def balTake : List Char → Nat → List Char → Option (List Char)
  | [], _, _ => none
  | c :: rest, depth, acc =>
    if c = lb then balTake rest (depth + 1) (acc ++ [c])
    else if c = rb then
      if depth = 1 then some (acc ++ [c]) else balTake rest (depth - 1) (acc ++ [c])
    else balTake rest depth (acc ++ [c])

/-- Modelled from the spec: locate the first substring that forms a
balanced brace block (brace matching, handling nested braces): for each
left brace in order, attempt a depth-counting scan and return the first
block that closes. This is the refinement counterpart the source's greedy
regular expression is compared against. -/
def firstBalanced : List Char → Option (List Char)
  | [] => none
  | c :: rest =>
    if c = lb then
      match balTake (c :: rest) 0 [] with
      | some b => some b
      | none => firstBalanced rest
    else firstBalanced rest

/-- Modelled from the spec: the balanced-block extractor on strings. -/
def specExtract (t : String) : Option String :=
  (firstBalanced t.data).map String.mk

/-! ### Chunker (route.ts lines 145-165) -/

/-- Split on runs of two or more newlines, the semantics of
`content.split(/\n\n+/)`: a maximal run of `k ≥ 2` newlines is one
separator; lone newlines stay inside the pieces; leading, trailing and
adjacent separators produce empty pieces, exactly as in JavaScript. The
fuel argument only drives structural recursion: every step consumes at
least one character and one unit of fuel, so with fuel at least the input
length the fuel-exhausted branch is never taken. -/
def splitNNF : Nat → List Char → List (List Char)
  | _, [] => [[]]
  | 0, cs => [cs]
  | fuel + 1, '\n' :: '\n' :: rest =>
    [] :: splitNNF fuel (rest.dropWhile (fun c => c = '\n'))
  | fuel + 1, c :: cs =>
    match splitNNF fuel cs with
    | [] => [[c]]
    | p :: ps => (c :: p) :: ps

/-- The paragraph splitter, with enough fuel for its input. -/
def splitNN (cs : List Char) : List (List Char) := splitNNF cs.length cs

/-- The paragraph sections of a document (`content.split(/\n\n+/)`). -/
def sectionsOf (content : String) : List String :=
  (splitNN content.data).map String.mk

/-- The greedy packing loop of the chunker: `current` is the chunk being
assembled, `secs` the remaining sections, `acc` the chunks pushed so far.
Faithful to the `for (const section of sections)` loop plus the trailing
`if (current) chunks.push(current)`. -/
def packGo (budget : Nat) : String → List String → List String → List String
  | current, [], acc => if current = "" then acc else acc ++ [current]
  | current, s :: rest, acc =>
    if budget < (current ++ "\n\n" ++ s).length ∧ 0 < current.length then
      packGo budget s rest (acc ++ [current])
    else
      packGo budget (if current = "" then s else current ++ "\n\n" ++ s) rest acc

/-- The chunker: one chunk when the text fits the budget, otherwise greedy
packing of paragraph sections (`MAX_CONTENT_CHARS` is the budget
parameter; the route instantiates it with 100000). -/
def chunkContent (budget : Nat) (content : String) : List String :=
  if content.length ≤ budget then [content]
  else packGo budget "" (sectionsOf content) []

/-! ### Per-chunk result parsing (route.ts lines 226-237) -/

/-- The four arrays accumulated across chunks
(`allEntities` / `allRelationships` / `allInsights` / `allFrontierHints`),
kept as raw parsed JSON values exactly as the source pushes them. -/
structure Contribution where
  entities : List Json
  relationships : List Json
  insights : List Json
  frontierHints : List Json

/-- The contribution of a chunk that contributes nothing. -/
def emptyContrib : Contribution := ⟨[], [], [], []⟩

/-- Concatenate two contributions arraywise, preserving order. -/
def appendContrib (a b : Contribution) : Contribution :=
  ⟨a.entities ++ b.entities, a.relationships ++ b.relationships,
   a.insights ++ b.insights, a.frontierHints ++ b.frontierHints⟩

/-- Lookup among parsed object fields. -/
def lookupField : List (String × Json) → String → Option Json
  | [], _ => none
  | (k0, v) :: rest, k => if k0 = k then some v else lookupField rest k

/-- Property access `j[k]`: `JSON.parse` keeps the last duplicate key, so
the lookup runs over the reversed field list; access on a non-object
yields `undefined` (`none`). -/
def getField (j : Json) (k : String) : Option Json :=
  match j with
  | Json.obj fs => lookupField fs.reverse k
  | _ => none

/-- JavaScript truthiness of a parsed JSON value (`undefined` is handled
by the callers as `none`). -/
def jsTruthy : Json → Bool
  | Json.null => false
  | Json.bool b => b
  | Json.num n => n ≠ 0
  | Json.str s => !s.isEmpty
  | Json.arr _ => true
  | Json.obj _ => true

/-- One guarded push `if (parsed.k) all.push(...parsed.k)`: a missing or
falsy field pushes nothing; a truthy array pushes its items; a truthy
non-array raises a `TypeError` when spread (`Except.error`). -/
def fieldItems (j : Json) (k : String) : Except Unit (List Json) :=
  match getField j k with
  | none => Except.ok []
  | some v =>
    if jsTruthy v then
      match v with
      | Json.arr xs => Except.ok xs
      | _ => Except.error ()
    else Except.ok []

/-- Substring extraction followed by `JSON.parse`. -/
def contribParse (t : String) : Option Json :=
  (extractGreedy t).bind jsonParse

/-- The contribution of one chunk's raw response: extract the regex match,
parse it, then perform the four guarded pushes in order. The surrounding
`try`/`catch` keeps whatever was pushed before an exception, so a raising
push leaves the earlier arrays of this chunk in place and drops the later
ones; a parse failure (or no match) contributes nothing. -/
def chunkContrib (t : String) : Contribution :=
  match contribParse t with
  | none => emptyContrib
  | some j =>
    match fieldItems j "entities" with
    | Except.error _ => ⟨[], [], [], []⟩
    | Except.ok es =>
      match fieldItems j "relationships" with
      | Except.error _ => ⟨es, [], [], []⟩
      | Except.ok rs =>
        match fieldItems j "insights" with
        | Except.error _ => ⟨es, rs, [], []⟩
        | Except.ok is2 =>
          match fieldItems j "frontier_hints" with
          | Except.error _ => ⟨es, rs, is2, []⟩
          | Except.ok hs => ⟨es, rs, is2, hs⟩

/-! ### The per-chunk provider loop (route.ts lines 217-238) -/

/-- A provider failure (`ProviderError`). -/
structure PErr where
  msg : String
deriving DecidableEq

/-- The sequential `for` loop over chunks, starting at chunk index `i`
with `k` chunks left: each iteration performs one provider call (`callAI`)
whose raised error propagates out of the loop uncaught, then adds the
chunk's parsed contribution. Contributions are appended in chunk order. -/
def loopChunks (f : Nat → Except PErr String) : Nat → Nat → Except PErr Contribution
  | _, 0 => Except.ok emptyContrib
  | i, k + 1 =>
    match f i with
    | Except.error e => Except.error e
    | Except.ok t =>
      match loopChunks f (i + 1) k with
      | Except.error e => Except.error e
      | Except.ok c => Except.ok (appendContrib (chunkContrib t) c)

/-! ### Typed extraction result (the `ExtractionResult` interface) -/

/-- A merged entity as consumed by materialization. -/
structure EntityIn where
  name : String
  type : String
  subtype : Option String
  description : Option String
  metadata : Json

/-- A merged relationship. -/
structure RelIn where
  source : String
  target : String
  label : String
  weight : Int

/-- A merged insight. -/
structure InsightIn where
  type : String
  severity : String
  text : String

/-- A merged frontier hint. -/
structure HintIn where
  name : String
  hint : String
  risk : String
  value : String
  accessNeeded : String

/-- The merged extraction result for a document. -/
structure ExtractionResult where
  entities : List EntityIn
  relationships : List RelIn
  insights : List InsightIn
  frontierHints : List HintIn

/-- String field access. The source trusts the model output's shape; a
non-string here would be rejected by the persistence layer, which is
outside the model, so it reads as the empty string. -/
def asStr : Option Json → String
  | some (Json.str s) => s
  | _ => ""

/-- Optional string field with the source's `x || null` collapse: a falsy
value (missing, null, empty string) becomes `none`. -/
def asOptStr : Option Json → Option String
  | some (Json.str s) => if s.isEmpty then none else some s
  | _ => none

/-- Metadata field with the source's `entityData.metadata || {}` default. -/
def asMeta : Option Json → Json
  | some v => if jsTruthy v then v else Json.obj []
  | none => Json.obj []

/-- Numeric field; non-numbers read as 0 (made falsy, as a missing
`weight` is in `relData.weight || 1`). -/
def asNum : Option Json → Int
  | some (Json.num n) => n
  | _ => 0

/-- Field accesses performed on a merged entity object. -/
def decodeEntity (j : Json) : EntityIn :=
  ⟨asStr (getField j "name"), asStr (getField j "type"),
   asOptStr (getField j "subtype"), asOptStr (getField j "description"),
   asMeta (getField j "metadata")⟩

/-- Field accesses performed on a merged relationship object. -/
def decodeRel (j : Json) : RelIn :=
  ⟨asStr (getField j "source"), asStr (getField j "target"),
   asStr (getField j "label"), asNum (getField j "weight")⟩

/-- Field accesses performed on a merged insight object. -/
def decodeInsight (j : Json) : InsightIn :=
  ⟨asStr (getField j "type"), asStr (getField j "severity"),
   asStr (getField j "text")⟩

/-- Field accesses performed on a merged frontier hint object. -/
def decodeHint (j : Json) : HintIn :=
  ⟨asStr (getField j "name"), asStr (getField j "hint"),
   asStr (getField j "risk"), asStr (getField j "value"),
   asStr (getField j "access_needed")⟩

/-- The merged contribution viewed through the field accesses of the
materialization code. -/
def decodeContrib (c : Contribution) : ExtractionResult :=
  ⟨c.entities.map decodeEntity, c.relationships.map decodeRel,
   c.insights.map decodeInsight, c.frontierHints.map decodeHint⟩

/-! ### Persisted rows (ids are allocated from a running counter; fields
constant across a pass, such as `projectId`, `documentId` and
`extractedBy`, are omitted) -/

/-- A persisted Entity row. -/
structure EntityRow where
  id : Nat
  name : String
  type : String
  subtype : Option String
  description : Option String
  metadata : Json
  territoryId : Option Nat

/-- A persisted Edge row. -/
structure EdgeRow where
  id : Nat
  sourceId : Nat
  targetId : Nat
  label : String
  weight : Int

/-- A persisted Insight row. -/
structure InsightRow where
  id : Nat
  type : String
  severity : String
  text : String

/-- A persisted Territory row, as written by the pass. -/
structure TerritoryRowW where
  id : Nat
  name : String
  type : String
  status : String
  description : Option String
  hint : Option String
  risk : Option String
  value : Option String
  accessNeeded : Option String

/-- A persisted Agent row, as written by the pass. -/
structure AgentRowW where
  id : Nat
  name : String
  role : String
  status : String
  domain : Option String
  description : Option String
  entitiesManaged : Nat
  parentAgentId : Option Nat

/-! ### Entity/edge materializer (route.ts lines 253-307) -/

/-- Assignment `m[k] = v` on a JavaScript object: replace the existing
entry in place, or append a fresh one. -/
def setKey : List (String × Nat) → String → Nat → List (String × Nat)
  | [], k, v => [(k, v)]
  | (k0, v0) :: rest, k, v =>
    if k0 = k then (k, v) :: rest else (k0, v0) :: setKey rest k v

/-- Read `m[k]` on a JavaScript object (keys are unique). -/
def lookupKey : List (String × Nat) → String → Option Nat
  | [], _ => none
  | (k0, v0) :: rest, k => if k0 = k then some v0 else lookupKey rest k

/-- The Entity row created for one merged entity. -/
def mkEntityRow (n : Nat) (e : EntityIn) : EntityRow :=
  ⟨n, e.name, e.type, e.subtype, e.description, e.metadata, none⟩

/-- The entity creation loop: create a row per merged entity (ids run
from the current counter) and record `entityMap[name] = id` after each
creation, so a repeated name keeps the id of its latest row. -/
def matLoop : List EntityIn → Nat → List EntityRow × List (String × Nat) →
    List EntityRow × List (String × Nat)
  | [], _, st => st
  | e :: es, n, st =>
    matLoop es (n + 1) (st.1 ++ [mkEntityRow n e], setKey st.2 e.name n)

/-- Materialize the merged entities starting at id `base`. -/
def matEntities (base : Nat) (es : List EntityIn) :
    List EntityRow × List (String × Nat) :=
  matLoop es base ([], [])

/-- The edge creation loop: resolve both endpoints through the pass-local
map; rows are created only when both lookups succeed (stored ids are
nonempty strings, hence truthy), with `weight || 1` defaulting. -/
def edgesLoop : List RelIn → Nat → List (String × Nat) → List EdgeRow
  | [], _, _ => []
  | r :: rs, n, m =>
    match lookupKey m r.source, lookupKey m r.target with
    | some s, some t =>
      ⟨n, s, t, r.label, if r.weight = 0 then 1 else r.weight⟩ ::
        edgesLoop rs (n + 1) m
    | _, _ => edgesLoop rs n m

/-- The insight creation loop. -/
def insightRows (base : Nat) : List InsightIn → List InsightRow
  | [] => []
  | i :: is2 => ⟨base, i.type, i.severity, i.text⟩ :: insightRows (base + 1) is2

/-! ### Grouping (shared by territory derivation and the read-time
territory dedup): a JavaScript record/Map keyed by `key`, appending each
element to its group, keys kept in first-occurrence order. -/

/-- Add one element to its group (append-in-place or new group). -/
def addToGroup [DecidableEq κ] (key : α → κ) : List (κ × List α) → α → List (κ × List α)
  | [], x => [(key x, [x])]
  | (k, g) :: rest, x =>
    if k = key x then (k, g ++ [x]) :: rest else (k, g) :: addToGroup key rest x

/-- Group a list by a key, preserving first-occurrence key order and
element order within groups. -/
def groupByKey [DecidableEq κ] (key : α → κ) (xs : List α) : List (κ × List α) :=
  xs.foldl (addToGroup key) []

/-- `territoriesMap`: entity ids grouped by entity type, in creation
order (route.ts lines 310-318). -/
def typeGroups (rows : List EntityRow) : List (String × List Nat) :=
  (groupByKey (fun r => r.type) rows).map (fun p => (p.1, p.2.map (fun r => r.id)))

/-- `s.charAt(0).toUpperCase() + s.slice(1)`. -/
def capitalize (s : String) : String :=
  match s.data with
  | [] => ""
  | c :: cs => String.mk (c.toUpper :: cs)

/-- The known-territory creation loop (route.ts lines 320-340). -/
def knownTerrRows : List (String × List Nat) → Nat → List TerritoryRowW
  | [], _ => []
  | (t, ids) :: rest, n =>
    ⟨n, capitalize t, t, "known",
     some ("Territory containing " ++ toString ids.length ++ " " ++ t ++ " entities"),
     none, none, none, none⟩ :: knownTerrRows rest (n + 1)

/-- The territory id assigned to each type group, in creation order. -/
def terrIdOfType : List (String × List Nat) → Nat → List (String × Nat)
  | [], _ => []
  | (t, _) :: rest, n => (t, n) :: terrIdOfType rest (n + 1)

/-- The `updateMany` backfill: each created entity's `territoryId` is set
to the known territory of its type (each group holds exactly the ids of
the rows of its type). -/
def backfill (rows : List EntityRow) (tmap : List (String × Nat)) : List EntityRow :=
  rows.map (fun r => { r with territoryId := lookupKey tmap r.type })

/-- The frontier-territory creation loop (route.ts lines 342-357). -/
def frontierRows : List HintIn → Nat → List TerritoryRowW
  | [], _ => []
  | h :: hs, n =>
    ⟨n, h.name, "frontier", "frontier", none,
     some h.hint, some h.risk, some h.value, some h.accessNeeded⟩ ::
      frontierRows hs (n + 1)

/-- The pass coordinator Agent (route.ts lines 360-369). -/
def coordRow (n total : Nat) : AgentRowW :=
  ⟨n, "System Coordinator", "coordinator", "active", none,
   some "Primary agent overseeing knowledge extraction and analysis", total, none⟩

/-- The explorer creation loop over the major type groups (route.ts lines
374-392). The source recovers each group by `territoriesMap[type]`; group
keys are unique, so this is the group the type was filtered from. -/
def explorerRows : List (String × List Nat) → Nat → Nat → List AgentRowW
  | [], _, _ => []
  | (t, ids) :: rest, n, coordId =>
    ⟨n, capitalize t ++ " Explorer", "explorer", "active", some t,
     some ("Specialized agent for analyzing " ++ t ++ " entities"),
     ids.length, some coordId⟩ :: explorerRows rest (n + 1) coordId

/-- Everything one extraction pass persists. -/
structure PassOut where
  entities : List EntityRow
  entityMap : List (String × Nat)
  edges : List EdgeRow
  insights : List InsightRow
  territories : List TerritoryRowW
  agents : List AgentRowW

/-- One materialization pass over a merged extraction result, threading
the id counter through the creation order of the source: entities, edges,
insights, known territories (with member backfill), frontier territories,
coordinator, explorers. -/
def runPass (base : Nat) (r : ExtractionResult) : PassOut :=
  let rm := matEntities base r.entities
  let n1 := base + rm.1.length
  let eds := edgesLoop r.relationships n1 rm.2
  let n2 := n1 + eds.length
  let ins := insightRows n2 r.insights
  let n3 := n2 + ins.length
  let groups := typeGroups rm.1
  let kts := knownTerrRows groups n3
  let rows2 := backfill rm.1 (terrIdOfType groups n3)
  let n4 := n3 + groups.length
  let fts := frontierRows r.frontierHints n4
  let n5 := n4 + fts.length
  let majors := groups.filter (fun p => 3 ≤ p.2.length)
  ⟨rows2, rm.2, eds, ins, kts ++ fts, coordRow n5 rm.1.length :: explorerRows majors (n5 + 1) n5⟩

/-- An empty pass output: nothing has been persisted. -/
def emptyPassOut : PassOut := ⟨[], [], [], [], [], []⟩

/-- The outcome visible after the route returns: the document's final
status and the rows the pass persisted. -/
structure Outcome where
  status : String
  rows : PassOut

/-- The extraction pipeline after configuration checks: chunk the
document, run the sequential provider loop, and only then materialize the
merged result and mark the document `extracted`; an error thrown anywhere
(in particular a provider failure inside the loop) reaches the outer
`catch` before any row is created, and the document is marked `failed`. -/
def pipeline (budget base : Nat) (content : String)
    (f : Nat → Except PErr String) : Outcome :=
  match loopChunks f 0 (chunkContent budget content).length with
  | Except.error _ => ⟨"failed", emptyPassOut⟩
  | Except.ok c => ⟨"extracted", runPass base (decodeContrib c)⟩

/-! ### Read-time territory reconciliation (territories route, `dedup`) -/

/-- A member entity as selected by the territories read route. -/
structure EntRef where
  id : Nat
  name : String
  type : String
deriving DecidableEq

/-- A Territory row as read back, together with its member entities. -/
structure TerritoryRowR where
  id : Nat
  name : String
  type : String
  status : String
  description : Option String
  hint : Option String
  risk : Option String
  value : Option String
  accessNeeded : Option String
  entities : List EntRef
deriving DecidableEq

/-- The synthesized known territory exposed by the route. -/
structure SynthKnown where
  id : Nat
  name : String
  type : String
  status : String
  description : Option String
  entities : List Nat
  entityDetails : List EntRef
deriving DecidableEq

/-- The synthesized frontier territory exposed by the route. -/
structure SynthFrontier where
  id : Nat
  name : String
  type : String
  status : String
  hint : Option String
  risk : Option String
  value : Option String
  accessNeeded : Option String
deriving DecidableEq

/-- The grouping key of the territory dedup, the string
`name + "|" + type + "|" + status`. -/
def terrKey (t : TerritoryRowR) : String :=
  t.name ++ "|" ++ t.type ++ "|" ++ t.status

/-- `entityMap.set(e.id, e)`: replace in place or append. -/
def setEnt : List (Nat × EntRef) → EntRef → List (Nat × EntRef)
  | [], e => [(e.id, e)]
  | (i, v) :: rest, e =>
    if i = e.id then (i, e) :: rest else (i, v) :: setEnt rest e

/-- Union of the member entity lists of a group, deduplicated by entity
id through a Map (first-insertion order, later values overwrite). -/
def unionEnts (group : List TerritoryRowR) : List EntRef :=
  (group.foldl (fun acc t => t.entities.foldl setEnt acc) []).map Prod.snd

/-- The known-territory mapper of `dedup`: first row's scalar fields,
merged member entities. -/
def synthKnown (group : List TerritoryRowR) : SynthKnown :=
  match group with
  | [] => ⟨0, "", "", "", none, [], []⟩
  | first :: _ =>
    let alls := unionEnts group
    ⟨first.id, first.name, first.type, first.status, first.description,
     alls.map (fun e => e.id), alls⟩

/-- The frontier-territory mapper of `dedup`: first row's fields only. -/
def synthFrontier (group : List TerritoryRowR) : SynthFrontier :=
  match group with
  | [] => ⟨0, "", "", "", none, none, none, none⟩
  | first :: _ =>
    ⟨first.id, first.name, first.type, first.status, first.hint,
     first.risk, first.value, first.accessNeeded⟩

/-- The `known` list of the territories route: filter to known rows,
group by the joined key, synthesize one territory per group. -/
def knownView (rows : List TerritoryRowR) : List SynthKnown :=
  (groupByKey terrKey (rows.filter (fun t => t.status = "known"))).map
    (fun p => synthKnown p.2)

/-- The `frontier` list of the territories route. -/
def frontierView (rows : List TerritoryRowR) : List SynthFrontier :=
  (groupByKey terrKey (rows.filter (fun t => t.status = "frontier"))).map
    (fun p => synthFrontier p.2)

/-- The exact grouping triple named by the specification. -/
def terrTriple (t : TerritoryRowR) : String × String × String :=
  (t.name, t.type, t.status)

/-- Modelled from the spec: the known view with grouping by the exact
(name, type, status) triple instead of the joined key string. -/
def specKnownView (rows : List TerritoryRowR) : List SynthKnown :=
  (groupByKey terrTriple (rows.filter (fun t => t.status = "known"))).map
    (fun p => synthKnown p.2)

/-! ### Read-time agent reconciliation (`deduplicateAgents`) -/

/-- An Agent row as consumed by the agent tree view; timestamps are
`Nat`s (see the file header). -/
structure AgentR where
  id : Nat
  name : String
  role : String
  status : String
  domain : Option String
  description : Option String
  entitiesManaged : Nat
  createdAt : Nat
  updatedAt : Nat
deriving DecidableEq

/-- JavaScript truthiness of an optional string (`null` and the empty
string are falsy). -/
def optTruthy : Option String → Bool
  | none => false
  | some s => !s.isEmpty

/-- The merge key `name + "_" + role`. -/
def agentKey (a : AgentR) : String := a.name ++ "_" ++ a.role

/-- Merge a newly seen agent into the existing map entry: sum
`entitiesManaged`, prefer `active` status, keep the most recent
`createdAt`/`updatedAt` pair, and fill a missing description or domain. -/
def mergeAgent (ex ag : AgentR) : AgentR :=
  let ex1 := { ex with entitiesManaged := ex.entitiesManaged + ag.entitiesManaged }
  let ex2 := if ag.status = "active" ∧ ex1.status ≠ "active"
    then { ex1 with status := ag.status } else ex1
  let ex3 := if ex2.createdAt < ag.createdAt
    then { ex2 with createdAt := ag.createdAt, updatedAt := ag.updatedAt } else ex2
  let ex4 := if optTruthy ag.description ∧ ¬ optTruthy ex3.description
    then { ex3 with description := ag.description } else ex3
  if optTruthy ag.domain ∧ ¬ optTruthy ex4.domain
    then { ex4 with domain := ag.domain } else ex4

/-- One step of `deduplicateAgents`: merge into the existing entry for
the key, or insert a copy at the end (Map insertion order). -/
def upsertAgent : List (String × AgentR) → AgentR → List (String × AgentR)
  | [], ag => [(agentKey ag, ag)]
  | (k, ex) :: rest, ag =>
    if k = agentKey ag then (k, mergeAgent ex ag) :: rest
    else (k, ex) :: upsertAgent rest ag

/-- Deduplicate and merge agents with the same name and role, returning
the merged agents in key first-occurrence order. -/
def deduplicateAgents (agents : List AgentR) : List AgentR :=
  (agents.foldl upsertAgent []).map Prod.snd

/-- Lookup of a group by its key. -/
def lookupGrp [DecidableEq κ] : List (κ × List α) → κ → Option (List α)
  | [], _ => none
  | (k0, g) :: rest, k => if k0 = k then some g else lookupGrp rest k

/-- Correspondence between parallel grouping accumulators: same groups,
and keys that name the same elements of the universe `u` under the two
key functions. -/
def GrpRel (k1 : α → κ1) (k2 : α → κ2) (u : List α)
    (p : κ1 × List α) (q : κ2 × List α) : Prop :=
  p.2 = q.2 ∧ ∃ z ∈ u, p.1 = k1 z ∧ q.1 = k2 z

/-- Modelled from the spec: the per-chunk contribution computed with the
balanced-block extractor instead of the greedy regex slice (refinement
counterpart of `chunkContrib`). -/
def specChunkContrib (t : String) : Contribution :=
  match (specExtract t).bind jsonParse with
  | none => emptyContrib
  | some j =>
    match fieldItems j "entities" with
    | Except.error _ => ⟨[], [], [], []⟩
    | Except.ok es =>
      match fieldItems j "relationships" with
      | Except.error _ => ⟨es, [], [], []⟩
      | Except.ok rs =>
        match fieldItems j "insights" with
        | Except.error _ => ⟨es, rs, [], []⟩
        | Except.ok is2 =>
          match fieldItems j "frontier_hints" with
          | Except.error _ => ⟨es, rs, is2, []⟩
          | Except.ok hs => ⟨es, rs, is2, hs⟩

/-- Concatenation of a list of contributions, in order. -/
def joinContribs : List Contribution → Contribution
  | [] => emptyContrib
  | c :: cs => appendContrib c (joinContribs cs)

/-- Index of the last entity with the given name, if any. -/
def lastIdxA (k : String) : List EntityIn → Option Nat
  | [] => none
  | e :: es =>
    match lastIdxA k es with
    | some j => some (j + 1)
    | none => if e.name = k then some 0 else none

/-! ### Concrete inputs used by witnesses and counterexamples -/

/-- A 16-character document with three paragraph sections. -/
def docThree : String := "aaaa\n\nbbbb\n\ncccc"

/-- A 10-character document with two paragraph sections. -/
def docTwo : String := "aaaa\n\nbbbb"

/-- A provider response carrying one person entity named `A`. -/
def okJsonA : String := "\x7b\"entities\":[\x7b\"name\":\"A\",\"type\":\"person\"\x7d]\x7d"

/-- A provider response carrying one team entity named `B`. -/
def okJsonB : String := "\x7b\"entities\":[\x7b\"name\":\"B\",\"type\":\"team\"\x7d]\x7d"

/-- An oracle whose second call (chunk index 1) fails with a provider
error while every other call parses cleanly. -/
def oracleFail2 : Nat → Except PErr String :=
  fun i => if i = 1 then Except.error ⟨"provider unavailable"⟩ else Except.ok okJsonA

/-- Responses whose first chunk is unparseable prose. -/
def respGarbled : Nat → String :=
  fun i => if i = 0 then "no json here" else okJsonB

/-- The specification's parsing example: noise around a balanced object. -/
def exampleNoise : String :=
  "noise \x7b\"entities\":[],\"relationships\":[\x7b\"a\":1\x7d]\x7d trailing"

/-- A response whose first balanced object is followed by junk and a
second brace pair, so the greedy slice is not valid JSON. -/
def exampleTwoBlocks : String :=
  "\x7b\"entities\":[\x7b\"name\":\"A\",\"type\":\"person\"\x7d]\x7d oops \x7b\x7d"

/-- A merged result with two same-named entities and one edge on that
name. -/
def dupResult : ExtractionResult :=
  ⟨[⟨"A", "person", none, none, Json.obj []⟩,
    ⟨"A", "person", none, some "second occurrence", Json.obj []⟩,
    ⟨"B", "team", none, none, Json.obj []⟩],
   [⟨"A", "B", "works with", 2⟩], [], []⟩

/-- The specification's materialization example: entities Acme and Bob,
one relationship to the never-materialized Ghost. -/
def ghostResult : ExtractionResult :=
  ⟨[⟨"Acme", "organisation", none, none, Json.obj []⟩,
    ⟨"Bob", "person", none, none, Json.obj []⟩],
   [⟨"Acme", "Ghost", "knows", 1⟩], [], []⟩

/-- An entity of the given name and type with no optional fields. -/
def plainEnt (n t : String) : EntityIn := ⟨n, t, none, none, Json.obj []⟩

/-- The specification's agent-hierarchy example: type-group sizes
person 5, goal 2, team 4. -/
def hierResult : ExtractionResult :=
  ⟨[plainEnt "p1" "person", plainEnt "p2" "person", plainEnt "p3" "person",
    plainEnt "p4" "person", plainEnt "p5" "person",
    plainEnt "g1" "goal", plainEnt "g2" "goal",
    plainEnt "t1" "team", plainEnt "t2" "team", plainEnt "t3" "team",
    plainEnt "t4" "team"],
   [], [], []⟩

/-- Member entities of the territory reconciliation example. -/
def entE1 : EntRef := ⟨1, "Alice", "person"⟩

/-- Second member entity of the territory reconciliation example. -/
def entE2 : EntRef := ⟨2, "Bob", "person"⟩

/-- Third member entity of the territory reconciliation example. -/
def entE3 : EntRef := ⟨3, "Carol", "person"⟩

/-- First known Person territory row, holding members e1 and e2. -/
def terrW1 : TerritoryRowR :=
  ⟨10, "Person", "person", "known", some "first pass", none, none, none, none,
   [entE1, entE2]⟩

/-- Second known Person territory row, holding members e2 and e3. -/
def terrW2 : TerritoryRowR :=
  ⟨11, "Person", "person", "known", some "second pass", none, none, none, none,
   [entE2, entE3]⟩

/-- A known territory row whose name contains the key delimiter. -/
def terrCX1 : TerritoryRowR :=
  ⟨20, "A|x", "y", "known", none, none, none, none, none, []⟩

/-- A known territory row with a different (name, type) pair but the same
joined grouping key as `terrCX1`. -/
def terrCX2 : TerritoryRowR :=
  ⟨21, "A", "x|y", "known", none, none, none, none, none, []⟩

/-! ### Lemmas about `deduplicateAgents` -/

/-- Merging never changes the agent's name. -/
theorem mergeAgent_name (ex ag : AgentR) : (mergeAgent ex ag).name = ex.name := by
  simp only [mergeAgent]
  split_ifs <;> rfl

/-- Merging never changes the agent's role. -/
theorem mergeAgent_role (ex ag : AgentR) : (mergeAgent ex ag).role = ex.role := by
  simp only [mergeAgent]
  split_ifs <;> rfl

/-- Merging never changes the merge key. -/
theorem mergeAgent_key (ex ag : AgentR) :
    agentKey (mergeAgent ex ag) = agentKey ex := by
  simp only [agentKey, mergeAgent_name, mergeAgent_role]

/-- Every map entry stores the key of its agent, after an upsert. -/
theorem upsertAgent_stores_key (ag : AgentR) :
    ∀ m : List (String × AgentR), (∀ p ∈ m, p.1 = agentKey p.2) →
      ∀ p ∈ upsertAgent m ag, p.1 = agentKey p.2 := by
  intro m
  induction m with
  | nil =>
    intro _ p hp
    simp only [upsertAgent, List.mem_singleton] at hp
    subst hp; rfl
  | cons q rest ih =>
    obtain ⟨k, ex⟩ := q
    intro h p hp
    rw [upsertAgent] at hp
    split at hp
    case isTrue hk =>
      rcases List.mem_cons.mp hp with h1 | h1
      · subst h1
        have h2 : k = agentKey ex := h ⟨k, ex⟩ (List.mem_cons_self _ _)
        show k = agentKey (mergeAgent ex ag)
        rw [mergeAgent_key]; exact h2
      · exact h p (List.mem_cons_of_mem _ h1)
    case isFalse hk =>
      rcases List.mem_cons.mp hp with h1 | h1
      · subst h1; exact h _ (List.mem_cons_self _ _)
      · exact ih (fun q hq => h q (List.mem_cons_of_mem _ hq)) p h1

/-- Every map entry stores the key of its agent, over the whole fold. -/
theorem foldl_upsert_stores_key (xs : List AgentR) :
    ∀ m : List (String × AgentR), (∀ p ∈ m, p.1 = agentKey p.2) →
      ∀ p ∈ xs.foldl upsertAgent m, p.1 = agentKey p.2 := by
  induction xs with
  | nil => exact fun m h => h
  | cons x xs ih =>
    intro m h
    exact ih (upsertAgent m x) (upsertAgent_stores_key x m h)

/-- Upserting an already present key leaves the key list unchanged. -/
theorem upsertAgent_keys_mem (ag : AgentR) :
    ∀ m : List (String × AgentR), agentKey ag ∈ m.map Prod.fst →
      (upsertAgent m ag).map Prod.fst = m.map Prod.fst := by
  intro m
  induction m with
  | nil => intro h; simp at h
  | cons q rest ih =>
    obtain ⟨k, ex⟩ := q
    intro h
    by_cases hk : k = agentKey ag
    · simp [upsertAgent, hk]
    · simp only [List.map_cons, List.mem_cons] at h
      rcases h with h | h
      · exact absurd h.symm hk
      · simp [upsertAgent, hk, ih h]

/-- Upserting a fresh key appends the entry at the end. -/
theorem upsertAgent_notMem (ag : AgentR) :
    ∀ m : List (String × AgentR), agentKey ag ∉ m.map Prod.fst →
      upsertAgent m ag = m ++ [(agentKey ag, ag)] := by
  intro m
  induction m with
  | nil => intro _; rfl
  | cons q rest ih =>
    obtain ⟨k, ex⟩ := q
    intro h
    simp only [List.map_cons, List.mem_cons] at h
    push_neg at h
    simp [upsertAgent, Ne.symm h.1, ih h.2]

/-- An upsert keeps the key list duplicate-free. -/
theorem upsertAgent_keys_nodup (m : List (String × AgentR)) (ag : AgentR)
    (h : (m.map Prod.fst).Nodup) :
    ((upsertAgent m ag).map Prod.fst).Nodup := by
  by_cases hm : agentKey ag ∈ m.map Prod.fst
  · rw [upsertAgent_keys_mem ag m hm]; exact h
  · rw [upsertAgent_notMem ag m hm]
    simp only [List.map_append, List.map_cons, List.map_nil]
    rw [List.nodup_append]
    refine ⟨h, List.nodup_singleton _, ?_⟩
    intro a ha hb
    simp only [List.mem_singleton] at hb
    subst hb
    exact hm ha

/-- The whole fold keeps the key list duplicate-free. -/
theorem foldl_upsert_keys_nodup (xs : List AgentR) :
    ∀ m : List (String × AgentR), (m.map Prod.fst).Nodup →
      ((xs.foldl upsertAgent m).map Prod.fst).Nodup := by
  induction xs with
  | nil => exact fun m h => h
  | cons x xs ih =>
    intro m h
    exact ih _ (upsertAgent_keys_nodup m x h)

/-- Folding a key-disjoint, key-duplicate-free batch of agents into the
map just appends their entries in order. -/
theorem foldl_upsert_fresh (ys : List AgentR) :
    ∀ m : List (String × AgentR), (∀ y ∈ ys, agentKey y ∉ m.map Prod.fst) →
      (ys.map agentKey).Nodup →
      ys.foldl upsertAgent m = m ++ ys.map (fun a => (agentKey a, a)) := by
  induction ys with
  | nil => intro m _ _; simp
  | cons y ys ih =>
    intro m hdisj hnd
    simp only [List.map_cons, List.nodup_cons] at hnd
    have h1 : upsertAgent m y = m ++ [(agentKey y, y)] :=
      upsertAgent_notMem y m (hdisj y (List.mem_cons_self _ _))
    simp only [List.foldl_cons, h1]
    rw [ih (m ++ [(agentKey y, y)])]
    · simp
    · intro y2 hy2
      simp only [List.map_append, List.map_cons, List.map_nil, List.mem_append,
        List.mem_singleton]
      push_neg
      refine ⟨hdisj y2 (List.mem_cons_of_mem _ hy2), ?_⟩
      intro hEq
      exact hnd.1 (hEq ▸ List.mem_map_of_mem agentKey hy2)
    · exact hnd.2

/-- The keys of the dedup output are duplicate-free. -/
theorem dedup_keys_nodup (xs : List AgentR) :
    ((deduplicateAgents xs).map agentKey).Nodup := by
  have hstore := foldl_upsert_stores_key xs [] (by simp)
  have hkeys : (deduplicateAgents xs).map agentKey =
      (xs.foldl upsertAgent []).map Prod.fst := by
    simp only [deduplicateAgents, List.map_map]
    apply List.map_congr_left
    intro p hp
    exact (hstore p hp).symm
  rw [hkeys]
  exact foldl_upsert_keys_nodup xs [] (by simp)

/-- C9: the read-time agent merge — group by the exact merge key built
from name and role, sum `entitiesManaged`, prefer `active` status, keep
the most recent timestamps, fill missing description/domain — is
idempotent: running `deduplicateAgents` on its own output yields the same
result as running it once, for every input list of Agent rows. -/
theorem agentMergeIdempotent (agents : List AgentR) :
    deduplicateAgents (deduplicateAgents agents) = deduplicateAgents agents := by
  have hnd := dedup_keys_nodup agents
  show ((deduplicateAgents agents).foldl upsertAgent []).map Prod.snd =
    deduplicateAgents agents
  rw [foldl_upsert_fresh (deduplicateAgents agents) [] (by simp) hnd]
  simp only [List.nil_append, List.map_map]
  have hcomp : (Prod.snd ∘ fun a : AgentR => (agentKey a, a)) = id := rfl
  rw [hcomp, List.map_id]

/-! ### Lemmas about `groupByKey` -/

/-- How one insertion changes a group lookup. -/
theorem lookupGrp_add [DecidableEq κ] (key : α → κ) (x : α) (k : κ) :
    ∀ acc : List (κ × List α),
      lookupGrp (addToGroup key acc x) k =
        if key x = k then some ((lookupGrp acc k).getD [] ++ [x])
        else lookupGrp acc k := by
  intro acc
  induction acc with
  | nil =>
    by_cases hx : key x = k
    · simp [addToGroup, lookupGrp, hx]
    · simp [addToGroup, lookupGrp, hx]
  | cons q rest ih =>
    obtain ⟨k0, g⟩ := q
    by_cases h0 : k0 = key x
    · subst h0
      by_cases hx : key x = k
      · subst hx
        simp [addToGroup, lookupGrp]
      · simp [addToGroup, lookupGrp, hx]
    · by_cases h0k : k0 = k
      · subst h0k
        have hx : key x ≠ k0 := fun h => h0 h.symm
        simp [addToGroup, h0, lookupGrp, hx]
      · simp [addToGroup, h0, lookupGrp, h0k, ih]

/-- Group lookup over the whole fold, when the accumulator already holds
the key: the group is extended by the matching elements, in order. -/
theorem lookupGrp_foldl_some [DecidableEq κ] (key : α → κ) (k : κ) :
    ∀ (xs : List α) (acc : List (κ × List α)) (g0 : List α),
      lookupGrp acc k = some g0 →
      lookupGrp (xs.foldl (addToGroup key) acc) k =
        some (g0 ++ xs.filter (fun x => key x = k)) := by
  intro xs
  induction xs with
  | nil =>
    intro acc g0 h
    simp [h]
  | cons x xs ih =>
    intro acc g0 h
    simp only [List.foldl_cons, List.filter_cons]
    by_cases hx : key x = k
    · have h2 : lookupGrp (addToGroup key acc x) k = some (g0 ++ [x]) := by
        rw [lookupGrp_add key x k acc, if_pos hx, h]
        rfl
      rw [ih _ _ h2]
      simp [hx, List.append_assoc]
    · have h2 : lookupGrp (addToGroup key acc x) k = some g0 := by
        rw [lookupGrp_add key x k acc, if_neg hx, h]
      rw [ih _ _ h2]
      simp [hx]

/-- Group lookup over the whole fold from a key-free accumulator: the
group is exactly the matching elements, absent when there are none. -/
theorem lookupGrp_foldl_none [DecidableEq κ] (key : α → κ) (k : κ) :
    ∀ (xs : List α) (acc : List (κ × List α)),
      lookupGrp acc k = none →
      lookupGrp (xs.foldl (addToGroup key) acc) k =
        (match xs.filter (fun x => key x = k) with
          | [] => none
          | g => some g) := by
  intro xs
  induction xs with
  | nil =>
    intro acc h
    simpa using h
  | cons x xs ih =>
    intro acc h
    simp only [List.foldl_cons, List.filter_cons]
    by_cases hx : key x = k
    · have h2 : lookupGrp (addToGroup key acc x) k = some [x] := by
        rw [lookupGrp_add key x k acc, if_pos hx, h]
        rfl
      rw [lookupGrp_foldl_some key k xs _ [x] h2]
      simp [hx]
    · have h2 : lookupGrp (addToGroup key acc x) k = none := by
        rw [lookupGrp_add key x k acc, if_neg hx]
        exact h
      rw [ih _ h2]
      simp [hx]

/-- The groups produced by `groupByKey` are the filters of their keys. -/
theorem lookupGrp_groupByKey [DecidableEq κ] (key : α → κ) (k : κ) (xs : List α) :
    lookupGrp (groupByKey key xs) k =
      (match xs.filter (fun x => key x = k) with
        | [] => none
        | g => some g) := by
  exact lookupGrp_foldl_none key k xs [] rfl

/-- How one insertion changes the key list. -/
theorem addToGroup_keys [DecidableEq κ] (key : α → κ) (x : α) :
    ∀ acc : List (κ × List α),
      (addToGroup key acc x).map Prod.fst =
        if key x ∈ acc.map Prod.fst then acc.map Prod.fst
        else acc.map Prod.fst ++ [key x] := by
  intro acc
  induction acc with
  | nil => simp [addToGroup]
  | cons q rest ih =>
    obtain ⟨k0, g⟩ := q
    by_cases h0 : k0 = key x
    · simp [addToGroup, h0]
    · have hne : key x = k0 ↔ False := ⟨fun h => h0 h.symm, False.elim⟩
      by_cases hm : key x ∈ rest.map Prod.fst
      · simp [addToGroup, h0, ih, hm, hne]
      · simp [addToGroup, h0, ih, hm, hne]

/-- Insertions keep the key list duplicate-free. -/
theorem addToGroup_keys_nodup [DecidableEq κ] (key : α → κ) (x : α)
    (acc : List (κ × List α)) (h : (acc.map Prod.fst).Nodup) :
    ((addToGroup key acc x).map Prod.fst).Nodup := by
  rw [addToGroup_keys]
  by_cases hm : key x ∈ acc.map Prod.fst
  · rw [if_pos hm]; exact h
  · rw [if_neg hm]
    rw [List.nodup_append]
    refine ⟨h, List.nodup_singleton _, ?_⟩
    intro a ha hb
    simp only [List.mem_singleton] at hb
    subst hb
    exact hm ha

/-- The key list of `groupByKey` is duplicate-free. -/
theorem groupByKey_keys_nodup [DecidableEq κ] (key : α → κ) (xs : List α) :
    ((groupByKey key xs).map Prod.fst).Nodup := by
  have hgen : ∀ (ys : List α) (acc : List (κ × List α)),
      (acc.map Prod.fst).Nodup →
      ((ys.foldl (addToGroup key) acc).map Prod.fst).Nodup := by
    intro ys
    induction ys with
    | nil => exact fun acc h => h
    | cons y ys ih =>
      intro acc h
      exact ih _ (addToGroup_keys_nodup key y acc h)
  exact hgen xs [] (by simp)

/-- A group entry is found by looking up its key, when keys are unique. -/
theorem lookupGrp_of_mem [DecidableEq κ] (k : κ) (g : List α) :
    ∀ l : List (κ × List α), (k, g) ∈ l → (l.map Prod.fst).Nodup →
      lookupGrp l k = some g := by
  intro l
  induction l with
  | nil => intro h; simp at h
  | cons q rest ih =>
    obtain ⟨k0, g0⟩ := q
    intro hm hnd
    simp only [List.map_cons, List.nodup_cons] at hnd
    rcases List.mem_cons.mp hm with h1 | h1
    · injection h1 with h2 h3
      subst h2; subst h3
      simp [lookupGrp]
    · have hk : k0 ≠ k := by
        intro hEq
        subst hEq
        exact hnd.1 (List.mem_map_of_mem Prod.fst h1)
      simp only [lookupGrp, if_neg hk]
      exact ih h1 hnd.2

/-- A successful lookup comes from a group entry. -/
theorem mem_of_lookupGrp [DecidableEq κ] (k : κ) (g : List α) :
    ∀ l : List (κ × List α), lookupGrp l k = some g → (k, g) ∈ l := by
  intro l
  induction l with
  | nil => intro h; simp [lookupGrp] at h
  | cons q rest ih =>
    obtain ⟨k0, g0⟩ := q
    intro h
    by_cases h0 : k0 = k
    · subst h0
      simp only [lookupGrp, if_pos] at h
      injection h with h2
      subst h2
      exact List.mem_cons_self _ _
    · simp only [lookupGrp, if_neg h0] at h
      exact List.mem_cons_of_mem _ (ih h)

/-- Related accumulators have equal group lists. -/
theorem mapSnd_eq_of_grpRel (k1 : α → κ1) (k2 : α → κ2) (u : List α) :
    ∀ (l1 : List (κ1 × List α)) (l2 : List (κ2 × List α)),
      List.Forall₂ (GrpRel k1 k2 u) l1 l2 →
      l1.map Prod.snd = l2.map Prod.snd := by
  intro l1 l2 h
  induction h with
  | nil => rfl
  | cons hab _ ih =>
    simp only [List.map_cons, ih, List.cons.injEq, and_true]
    exact hab.1

/-- One parallel insertion preserves the accumulator correspondence, as
long as the two key functions agree on which elements of `u` are
equivalent. -/
theorem addToGroup_rel (k1 : α → κ1) (k2 : α → κ2) [DecidableEq κ1] [DecidableEq κ2]
    (u : List α) (h : ∀ a ∈ u, ∀ b ∈ u, (k1 a = k1 b ↔ k2 a = k2 b))
    (x : α) (hx : x ∈ u) :
    ∀ (acc1 : List (κ1 × List α)) (acc2 : List (κ2 × List α)),
      List.Forall₂ (GrpRel k1 k2 u) acc1 acc2 →
      List.Forall₂ (GrpRel k1 k2 u) (addToGroup k1 acc1 x) (addToGroup k2 acc2 x) := by
  intro acc1 acc2 hrel
  induction hrel with
  | nil =>
    refine List.Forall₂.cons ?_ List.Forall₂.nil
    exact ⟨rfl, x, hx, rfl, rfl⟩
  | cons hab hrest ih =>
    rename_i p q l1 l2
    obtain ⟨pk, pg⟩ := p
    obtain ⟨qk, qg⟩ := q
    obtain ⟨hg, z, hz, hpz, hqz⟩ := hab
    replace hg : pg = qg := hg
    replace hpz : pk = k1 z := hpz
    replace hqz : qk = k2 z := hqz
    by_cases h1 : pk = k1 x
    · have h2 : qk = k2 x := hqz.trans ((h z hz x hx).mp (hpz.symm.trans h1))
      simp only [addToGroup, if_pos h1, if_pos h2]
      refine List.Forall₂.cons ?_ hrest
      exact ⟨by simp only [hg], z, hz, hpz, hqz⟩
    · have h2 : ¬ qk = k2 x := by
        intro hq
        have hk2 : k2 z = k2 x := hqz.symm.trans hq
        exact h1 (hpz.trans ((h z hz x hx).mpr hk2))
      simp only [addToGroup, if_neg h1, if_neg h2]
      refine List.Forall₂.cons ?_ ih
      exact ⟨hg, z, hz, hpz, hqz⟩

/-- Grouping by two key functions that agree on which list elements are
equivalent yields the same group lists. -/
theorem groupByKey_ext (k1 : α → κ1) (k2 : α → κ2) [DecidableEq κ1] [DecidableEq κ2]
    (xs : List α) (h : ∀ a ∈ xs, ∀ b ∈ xs, (k1 a = k1 b ↔ k2 a = k2 b)) :
    (groupByKey k1 xs).map Prod.snd = (groupByKey k2 xs).map Prod.snd := by
  have aux : ∀ (ys : List α), (∀ y ∈ ys, y ∈ xs) →
      ∀ (acc1 : List (κ1 × List α)) (acc2 : List (κ2 × List α)),
        List.Forall₂ (GrpRel k1 k2 xs) acc1 acc2 →
        List.Forall₂ (GrpRel k1 k2 xs)
          (ys.foldl (addToGroup k1) acc1) (ys.foldl (addToGroup k2) acc2) := by
    intro ys
    induction ys with
    | nil => exact fun _ _ _ hrel => hrel
    | cons y ys ih =>
      intro hsub acc1 acc2 hrel
      simp only [List.foldl_cons]
      exact ih (fun a ha => hsub a (List.mem_cons_of_mem _ ha)) _ _
        (addToGroup_rel k1 k2 xs h y (hsub y (List.mem_cons_self _ _)) acc1 acc2 hrel)
  exact mapSnd_eq_of_grpRel k1 k2 xs _ _
    (aux xs (fun _ hy => hy) [] [] List.Forall₂.nil)

/-! ### C8: territory reconciliation -/

/-- Splitting a concatenation at a separator absent from both prefixes is
unambiguous. -/
theorem splitSep (c : Char) :
    ∀ (l1 r1 l2 r2 : List Char), c ∉ l1 → c ∉ l2 →
      l1 ++ c :: r1 = l2 ++ c :: r2 → l1 = l2 ∧ r1 = r2 := by
  intro l1
  induction l1 with
  | nil =>
    intro r1 l2 r2 _ h2 he
    cases l2 with
    | nil => simpa using he
    | cons a l2 =>
      simp only [List.nil_append, List.cons_append, List.cons.injEq] at he
      exact absurd (by rw [he.1]; exact List.mem_cons_self _ _) h2
  | cons a l1 ih =>
    intro r1 l2 r2 h1 h2 he
    cases l2 with
    | nil =>
      simp only [List.nil_append, List.cons_append, List.cons.injEq] at he
      exact absurd (by rw [← he.1]; exact List.mem_cons_self _ _) h1
    | cons b l2 =>
      simp only [List.cons_append, List.cons.injEq] at he
      obtain ⟨hab, he2⟩ := he
      have hr := ih r1 l2 r2 (fun hm => h1 (List.mem_cons_of_mem _ hm))
        (fun hm => h2 (List.mem_cons_of_mem _ hm)) he2
      exact ⟨by rw [hab, hr.1], hr.2⟩

/-- The character data of the bar separator string. -/
theorem barData : ("|" : String).data = ['|'] := rfl

/-- The character data of a territory grouping key. -/
theorem terrKey_data (t : TerritoryRowR) :
    (terrKey t).data =
      t.name.data ++ '|' :: (t.type.data ++ '|' :: t.status.data) := by
  simp [terrKey, String.data_append, barData]

/-- On rows whose name and type avoid the bar delimiter, equality of the
joined grouping key coincides with equality of the exact
(name, type, status) triple. -/
theorem terrKey_inj (a b : TerritoryRowR)
    (ha1 : ('|' : Char) ∉ a.name.data) (ha2 : ('|' : Char) ∉ a.type.data)
    (hb1 : ('|' : Char) ∉ b.name.data) (hb2 : ('|' : Char) ∉ b.type.data) :
    terrKey a = terrKey b ↔ terrTriple a = terrTriple b := by
  constructor
  · intro h
    have hd := congrArg String.data h
    rw [terrKey_data, terrKey_data] at hd
    obtain ⟨hn, hrest⟩ := splitSep '|' _ _ _ _ ha1 hb1 hd
    obtain ⟨ht, hs⟩ := splitSep '|' _ _ _ _ ha2 hb2 hrest
    simp only [terrTriple, Prod.mk.injEq]
    exact ⟨String.ext hn, String.ext ht, String.ext hs⟩
  · intro h
    simp only [terrTriple, Prod.mk.injEq] at h
    obtain ⟨h1, h2, h3⟩ := h
    simp [terrKey, h1, h2, h3]

/-- C8 (amended): with bar-free names and types, the read-time territory
reconciliation groups the known rows exactly by the (name, type, status)
triple, unions member-entity sets deduplicated by entity id, and exposes
one synthesized territory per group with the first row's scalar fields:
the route's `known` view equals the view computed with exact-triple
grouping. (Without the bar-freeness restriction the joined string key can
conflate distinct triples; see the counterexample.) -/
theorem territoryDedupByTriple (rows : List TerritoryRowR)
    (h : ∀ r ∈ rows, ('|' : Char) ∉ r.name.data ∧ ('|' : Char) ∉ r.type.data) :
    knownView rows = specKnownView rows := by
  unfold knownView specKnownView
  have hmaps := groupByKey_ext terrKey terrTriple
    (rows.filter (fun t => t.status = "known")) ?_
  · have lhs : (groupByKey terrKey (rows.filter (fun t => t.status = "known"))).map
        (fun p => synthKnown p.2) =
        ((groupByKey terrKey (rows.filter (fun t => t.status = "known"))).map
          Prod.snd).map synthKnown := by
      rw [List.map_map]; rfl
    have rhs : (groupByKey terrTriple (rows.filter (fun t => t.status = "known"))).map
        (fun p => synthKnown p.2) =
        ((groupByKey terrTriple (rows.filter (fun t => t.status = "known"))).map
          Prod.snd).map synthKnown := by
      rw [List.map_map]; rfl
    rw [lhs, rhs, hmaps]
  · intro a ha b hb
    have ha2 := h a (List.mem_of_mem_filter ha)
    have hb2 := h b (List.mem_of_mem_filter hb)
    exact terrKey_inj a b ha2.1 ha2.2 hb2.1 hb2.2

/-- C8 counterexample: two known rows with different (name, type) pairs
but the same joined key are merged into a single synthesized territory,
so the view does not expose one territory per exact
(name, type, status) group. -/
theorem territoryDedupCollision :
    (knownView [terrCX1, terrCX2]).length = 1 ∧ terrTriple terrCX1 ≠ terrTriple terrCX2 :=
  ⟨rfl, by decide⟩

/-- C8 witness: on the specification's example — two known Person rows
with member sets e1,e2 and e2,e3 — the bar-freeness hypothesis holds, the
views agree, and the single merged territory has members e1, e2, e3. -/
theorem territoryDedupByTriple_witness :
    (∀ r ∈ [terrW1, terrW2], ('|' : Char) ∉ r.name.data ∧ ('|' : Char) ∉ r.type.data) ∧
    knownView [terrW1, terrW2] = specKnownView [terrW1, terrW2] ∧
    (knownView [terrW1, terrW2]).map (fun t => t.entities) = [[1, 2, 3]] :=
  ⟨by decide, territoryDedupByTriple [terrW1, terrW2] (by decide), rfl⟩

/-! ### Lemmas about the materializer -/

/-- Lookup after a JavaScript object assignment. -/
theorem lookupKey_setKey (k : String) (v : Nat) (k2 : String) :
    ∀ m : List (String × Nat),
      lookupKey (setKey m k v) k2 = if k = k2 then some v else lookupKey m k2 := by
  intro m
  induction m with
  | nil =>
    by_cases h : k = k2
    · simp [setKey, lookupKey, h]
    · simp [setKey, lookupKey, h]
  | cons q rest ih =>
    obtain ⟨k0, v0⟩ := q
    by_cases h0 : k0 = k
    · subst h0
      by_cases h2 : k0 = k2
      · simp [setKey, lookupKey, h2]
      · simp [setKey, lookupKey, h2]
    · by_cases h2 : k0 = k2
      · subst h2
        have : ¬ k = k0 := fun h => h0 h.symm
        simp [setKey, lookupKey, h0, this]
      · simp [setKey, lookupKey, h0, h2, ih]

/-- The entity loop creates one row per merged entity. -/
theorem matLoop_length : ∀ (es : List EntityIn) (n : Nat)
    (st : List EntityRow × List (String × Nat)),
    (matLoop es n st).1.length = st.1.length + es.length := by
  intro es
  induction es with
  | nil => intro n st; simp [matLoop]
  | cons e es ih =>
    intro n st
    simp only [matLoop, ih]
    simp only [List.length_append, List.length_cons, List.length_nil]
    omega

/-- The created rows carry the merged entities' names, in order. -/
theorem matLoop_names : ∀ (es : List EntityIn) (n : Nat)
    (st : List EntityRow × List (String × Nat)),
    (matLoop es n st).1.map (fun r => r.name) =
      st.1.map (fun r => r.name) ++ es.map (fun e => e.name) := by
  intro es
  induction es with
  | nil => intro n st; simp [matLoop]
  | cons e es ih =>
    intro n st
    simp only [matLoop, ih]
    simp [mkEntityRow, List.append_assoc]

/-- The created rows carry the merged entities' types, in order. -/
theorem matLoop_types : ∀ (es : List EntityIn) (n : Nat)
    (st : List EntityRow × List (String × Nat)),
    (matLoop es n st).1.map (fun r => r.type) =
      st.1.map (fun r => r.type) ++ es.map (fun e => e.type) := by
  intro es
  induction es with
  | nil => intro n st; simp [matLoop]
  | cons e es ih =>
    intro n st
    simp only [matLoop, ih]
    simp [mkEntityRow, List.append_assoc]

/-- The created rows get consecutive fresh ids from the counter. -/
theorem matLoop_ids : ∀ (es : List EntityIn) (n : Nat)
    (st : List EntityRow × List (String × Nat)),
    (matLoop es n st).1.map (fun r => r.id) =
      st.1.map (fun r => r.id) ++ (List.range es.length).map (fun i => n + i) := by
  intro es
  induction es with
  | nil => intro n st; simp [matLoop]
  | cons e es ih =>
    intro n st
    simp only [matLoop, ih]
    simp only [mkEntityRow, List.map_append, List.map_cons, List.map_nil,
      List.append_assoc, List.length_cons, List.singleton_append]
    congr 1
    rw [List.range_succ_eq_map]
    simp only [List.map_cons, Nat.add_zero, List.map_map]
    congr 1
    apply List.map_congr_left
    intro i _
    simp only [Function.comp_apply, Nat.succ_eq_add_one]
    omega

/-- The pass-local name map resolves a name to the id of the latest
created row with that name. -/
theorem matLoop_lookup (k : String) : ∀ (es : List EntityIn) (n : Nat)
    (st : List EntityRow × List (String × Nat)),
    lookupKey (matLoop es n st).2 k =
      (match lastIdxA k es with
        | some j => some (n + j)
        | none => lookupKey st.2 k) := by
  intro es
  induction es with
  | nil => intro n st; simp [matLoop, lastIdxA]
  | cons e es ih =>
    intro n st
    simp only [matLoop, ih, lastIdxA]
    match hl : lastIdxA k es with
    | some j =>
      simp only
      exact congrArg some (by omega)
    | none =>
      simp only
      rw [lookupKey_setKey]
      by_cases he : e.name = k
      · simp [he]
      · simp [he]

/-- A last-occurrence index lies inside the list and names `k`. -/
theorem lastIdxA_name (k : String) : ∀ (es : List EntityIn) (j : Nat),
    lastIdxA k es = some j → ∃ hj : j < es.length, (es.get ⟨j, hj⟩).name = k := by
  intro es
  induction es with
  | nil => intro j h; simp [lastIdxA] at h
  | cons e es ih =>
    intro j h
    simp only [lastIdxA] at h
    match hl : lastIdxA k es with
    | some j0 =>
      rw [hl] at h
      simp only [Option.some.injEq] at h
      subst h
      obtain ⟨hj0, hn⟩ := ih j0 hl
      exact ⟨Nat.succ_lt_succ hj0, hn⟩
    | none =>
      rw [hl] at h
      by_cases he : e.name = k
      · rw [if_pos he] at h
        simp only [Option.some.injEq] at h
        subst h
        exact ⟨Nat.succ_pos _, he⟩
      · rw [if_neg he] at h
        exact absurd h (by simp)

/-- When no last occurrence exists, no element names `k`. -/
theorem lastIdxA_none (k : String) : ∀ es : List EntityIn,
    lastIdxA k es = none →
    ∀ j, (hj : j < es.length) → (es.get ⟨j, hj⟩).name ≠ k := by
  intro es
  induction es with
  | nil => intro _ j hj; simp at hj
  | cons e es ih =>
    intro h j hj
    simp only [lastIdxA] at h
    match hl : lastIdxA k es with
    | some j0 => rw [hl] at h; exact absurd h (by simp)
    | none =>
      rw [hl] at h
      by_cases he : e.name = k
      · rw [if_pos he] at h; exact absurd h (by simp)
      · match j with
        | 0 => exact he
        | j2 + 1 => exact ih hl j2 (Nat.lt_of_succ_lt_succ hj)

/-- Nothing after the last occurrence names `k`. -/
theorem lastIdxA_last (k : String) : ∀ (es : List EntityIn) (j : Nat),
    lastIdxA k es = some j →
    ∀ j2, j < j2 → (hj2 : j2 < es.length) → (es.get ⟨j2, hj2⟩).name ≠ k := by
  intro es
  induction es with
  | nil => intro j h; simp [lastIdxA] at h
  | cons e es ih =>
    intro j h j2 hlt hj2
    simp only [lastIdxA] at h
    match hl : lastIdxA k es with
    | some j0 =>
      rw [hl] at h
      simp only [Option.some.injEq] at h
      subst h
      match j2 with
      | 0 => exact absurd hlt (by omega)
      | j3 + 1 =>
        exact ih j0 hl j3 (Nat.lt_of_succ_lt_succ hlt) (Nat.lt_of_succ_lt_succ hj2)
    | none =>
      rw [hl] at h
      by_cases he : e.name = k
      · rw [if_pos he] at h
        simp only [Option.some.injEq] at h
        subst h
        match j2 with
        | 0 => exact absurd hlt (by omega)
        | j3 + 1 => exact lastIdxA_none k es hl j3 (Nat.lt_of_succ_lt_succ hj2)
      · rw [if_neg he] at h
        exact absurd h (by simp)

/-- An occurrence of `k` guarantees a last occurrence at or after it. -/
theorem lastIdxA_exists (k : String) : ∀ (es : List EntityIn) (i : Nat)
    (hi : i < es.length), (es.get ⟨i, hi⟩).name = k →
    ∃ j, lastIdxA k es = some j ∧ i ≤ j := by
  intro es
  induction es with
  | nil => intro i hi; simp at hi
  | cons e es ih =>
    intro i hi hname
    match i with
    | 0 =>
      simp only [List.get] at hname
      match hl : lastIdxA k es with
      | some j0 => exact ⟨j0 + 1, by simp [lastIdxA, hl], Nat.zero_le _⟩
      | none => exact ⟨0, by simp [lastIdxA, hl, hname], Nat.le_refl _⟩
    | i2 + 1 =>
      obtain ⟨j0, hj0, hle⟩ := ih i2 (Nat.lt_of_succ_lt_succ hi) hname
      exact ⟨j0 + 1, by simp [lastIdxA, hj0], Nat.succ_le_succ hle⟩

/-- The edge loop keeps exactly the relationships whose two endpoint
names both resolve in the map. -/
theorem edgesLoop_length (m : List (String × Nat)) : ∀ (rels : List RelIn) (n : Nat),
    (edgesLoop rels n m).length =
      (rels.filter (fun rel =>
        (lookupKey m rel.source).isSome ∧ (lookupKey m rel.target).isSome)).length := by
  intro rels
  induction rels with
  | nil => intro n; simp [edgesLoop]
  | cons rel rels ih =>
    intro n
    simp only [edgesLoop, List.filter_cons]
    match hs : lookupKey m rel.source, ht : lookupKey m rel.target with
    | some a, some b => simp [hs, ht, ih]
    | some a, none => simp [hs, ht, ih]
    | none, some b => simp [hs, ht, ih]
    | none, none => simp [hs, ht, ih]

/-- Every created edge's endpoints are the map resolutions of some
merged relationship's source and target names. -/
theorem edgesLoop_mem (m : List (String × Nat)) : ∀ (rels : List RelIn) (n : Nat),
    ∀ e ∈ edgesLoop rels n m, ∃ rel ∈ rels,
      lookupKey m rel.source = some e.sourceId ∧
      lookupKey m rel.target = some e.targetId ∧ e.label = rel.label := by
  intro rels
  induction rels with
  | nil => intro n e he; simp [edgesLoop] at he
  | cons rel rels ih =>
    intro n e he
    simp only [edgesLoop] at he
    match hs : lookupKey m rel.source, ht : lookupKey m rel.target with
    | some a, some b =>
      rw [hs, ht] at he
      rcases List.mem_cons.mp he with h1 | h1
      · subst h1
        exact ⟨rel, List.mem_cons_self _ _, by simp [hs], by simp [ht], rfl⟩
      · obtain ⟨rel2, hm2, h2⟩ := ih (n + 1) e h1
        exact ⟨rel2, List.mem_cons_of_mem _ hm2, h2⟩
    | some a, none =>
      rw [hs, ht] at he
      obtain ⟨rel2, hm2, h2⟩ := ih n e he
      exact ⟨rel2, List.mem_cons_of_mem _ hm2, h2⟩
    | none, some b =>
      rw [hs, ht] at he
      obtain ⟨rel2, hm2, h2⟩ := ih n e he
      exact ⟨rel2, List.mem_cons_of_mem _ hm2, h2⟩
    | none, none =>
      rw [hs, ht] at he
      obtain ⟨rel2, hm2, h2⟩ := ih n e he
      exact ⟨rel2, List.mem_cons_of_mem _ hm2, h2⟩

/-- The pass exposes the entity map built by the entity loop. -/
theorem runPass_entityMap (base : Nat) (r : ExtractionResult) :
    (runPass base r).entityMap = (matEntities base r.entities).2 := rfl

/-- The pass's edges come from the edge loop over that map. -/
theorem runPass_edges (base : Nat) (r : ExtractionResult) :
    (runPass base r).edges = edgesLoop r.relationships
      (base + (matEntities base r.entities).1.length)
      (matEntities base r.entities).2 := rfl

/-- The pass's entities are the created rows, with territory backfill. -/
theorem runPass_entities_ex (base : Nat) (r : ExtractionResult) :
    ∃ tmap, (runPass base r).entities =
      backfill (matEntities base r.entities).1 tmap := ⟨_, rfl⟩

/-- Backfill sets only `territoryId`; names survive. -/
theorem backfill_names (rows : List EntityRow) (tmap : List (String × Nat)) :
    (backfill rows tmap).map (fun r => r.name) = rows.map (fun r => r.name) := by
  simp only [backfill, List.map_map]
  rfl

/-- Backfill sets only `territoryId`; ids survive. -/
theorem backfill_ids (rows : List EntityRow) (tmap : List (String × Nat)) :
    (backfill rows tmap).map (fun r => r.id) = rows.map (fun r => r.id) := by
  simp only [backfill, List.map_map]
  rfl

/-- Backfill sets only `territoryId`; types survive. -/
theorem backfill_types (rows : List EntityRow) (tmap : List (String × Nat)) :
    (backfill rows tmap).map (fun r => r.type) = rows.map (fun r => r.type) := by
  simp only [backfill, List.map_map]
  rfl

/-- Backfill keeps the row count. -/
theorem backfill_length (rows : List EntityRow) (tmap : List (String × Nat)) :
    (backfill rows tmap).length = rows.length := by
  simp [backfill]

/-- `matEntities` is the loop from an empty state. -/
theorem matEntities_def (base : Nat) (es : List EntityIn) :
    matEntities base es = matLoop es base ([], []) := rfl

/-- C3 (amended): the materializer creates exactly one Entity row per
entity occurrence in the merged extraction result — rows carry the merged
names in order (so duplicated names yield duplicated rows, not one row
per distinct name) and consecutive fresh ids; identity is pass-local with
no cross-pass resolution (the pass state starts empty). -/
theorem entityRowPerOccurrence (base : Nat) (r : ExtractionResult) :
    (runPass base r).entities.length = r.entities.length ∧
    (runPass base r).entities.map (fun e => e.name) = r.entities.map (fun e => e.name) ∧
    (runPass base r).entities.map (fun e => e.id) =
      (List.range r.entities.length).map (fun i => base + i) := by
  obtain ⟨tmap, hEq⟩ := runPass_entities_ex base r
  rw [hEq]
  refine ⟨?_, ?_, ?_⟩
  · rw [backfill_length]
    have h := matLoop_length r.entities base ([], [])
    simpa [matEntities_def] using h
  · rw [backfill_names]
    have h := matLoop_names r.entities base ([], [])
    simpa [matEntities_def] using h
  · rw [backfill_ids]
    have h := matLoop_ids r.entities base ([], [])
    simpa [matEntities_def] using h

/-- C3 counterexample: a merged result naming `A` twice produces two
rows that share the name `A` in the same pass, so the pass does not
create one row per distinct name. -/
theorem entityRowsShareName :
    (runPass 0 dupResult).entities.map (fun e => e.name) = ["A", "A", "B"] := rfl

/-- C6: every created edge resolves its endpoints through the pass-local
name map, and relationships with an unresolved endpoint are silently
dropped: the edge count is exactly the count of relationships whose two
endpoint names both resolve, and each edge's endpoint ids and label come
from a merged relationship via the map. -/
theorem edgesResolvePassLocal (base : Nat) (r : ExtractionResult) :
    (runPass base r).edges.length =
      (r.relationships.filter (fun rel =>
        (lookupKey (runPass base r).entityMap rel.source).isSome ∧
        (lookupKey (runPass base r).entityMap rel.target).isSome)).length ∧
    ∀ e ∈ (runPass base r).edges, ∃ rel ∈ r.relationships,
      lookupKey (runPass base r).entityMap rel.source = some e.sourceId ∧
      lookupKey (runPass base r).entityMap rel.target = some e.targetId ∧
      e.label = rel.label := by
  rw [runPass_edges, runPass_entityMap]
  exact ⟨edgesLoop_length _ r.relationships _, edgesLoop_mem _ r.relationships _⟩

/-- The specification's materialization example, checked directly: Acme
and Bob materialize, while the single relationship to the
never-materialized Ghost creates no edge. -/
theorem ghostExampleCheck :
    (runPass 0 ghostResult).entities.length = 2 ∧ (runPass 0 ghostResult).edges = [] :=
  ⟨rfl, rfl⟩

/-- The map of a pass resolves any name to the last assignment. -/
theorem runPass_lookup (base : Nat) (r : ExtractionResult) (k : String) :
    lookupKey (runPass base r).entityMap k =
      (match lastIdxA k r.entities with
        | some j => some (base + j)
        | none => none) := by
  rw [runPass_entityMap, matEntities_def]
  have h := matLoop_lookup k r.entities base ([], [])
  simpa [lookupKey] using h

/-- C10: when a name occurs more than once in a pass, all occurrences are
persisted, but the pass-local map keeps only the id of the latest row
with that name; every edge endpoint resolves through the map, so an
earlier same-named row's id never appears as an edge endpoint. -/
theorem dupNameEdgesAttachToLast (base : Nat) (r : ExtractionResult) (k : String)
    (j : Nat) (hj : j < r.entities.length)
    (hname : (r.entities.get ⟨j, hj⟩).name = k)
    (hlater : ∃ j2, j < j2 ∧ ∃ h2 : j2 < r.entities.length,
      (r.entities.get ⟨j2, h2⟩).name = k) :
    (runPass base r).entities.length = r.entities.length ∧
    (∃ l, ∃ hl : l < r.entities.length, j < l ∧ (r.entities.get ⟨l, hl⟩).name = k ∧
      lookupKey (runPass base r).entityMap k = some (base + l) ∧
      ∀ m2, l < m2 → ∀ hm2 : m2 < r.entities.length,
        (r.entities.get ⟨m2, hm2⟩).name ≠ k) ∧
    lookupKey (runPass base r).entityMap k ≠ some (base + j) ∧
    (∀ e ∈ (runPass base r).edges, e.sourceId ≠ base + j ∧ e.targetId ≠ base + j) := by
  obtain ⟨j2, hjj2, h2, hname2⟩ := hlater
  obtain ⟨l, hleq, hj2l⟩ := lastIdxA_exists k r.entities j2 h2 hname2
  obtain ⟨hl, hlname⟩ := lastIdxA_name k r.entities l hleq
  have hjl : j < l := Nat.lt_of_lt_of_le hjj2 hj2l
  have hlook : lookupKey (runPass base r).entityMap k = some (base + l) := by
    rw [runPass_lookup, hleq]
  have hunique : ∀ (n2 : String) (i : Nat),
      lookupKey (runPass base r).entityMap n2 = some (base + i) →
      i < r.entities.length ∧ lastIdxA n2 r.entities = some i := by
    intro n2 i hli
    rw [runPass_lookup] at hli
    match hx : lastIdxA n2 r.entities with
    | some i2 =>
      rw [hx] at hli
      simp only [Option.some.injEq] at hli
      have : i2 = i := by omega
      subst this
      exact ⟨(lastIdxA_name n2 r.entities i2 hx).1, rfl⟩
    | none => rw [hx] at hli; exact absurd hli (by simp)
  refine ⟨(entityRowPerOccurrence base r).1, ⟨l, hl, hjl, hlname, hlook, ?_⟩, ?_, ?_⟩
  · exact fun m2 hm2lt hm2 => lastIdxA_last k r.entities l hleq m2 hm2lt hm2
  · rw [hlook]
    simp only [ne_eq, Option.some.injEq]
    omega
  · intro e he
    rw [runPass_edges] at he
    obtain ⟨rel, _, hsrc, htgt, _⟩ := edgesLoop_mem _ r.relationships _ e he
    have hnotj : ∀ (n2 : String) (v : Nat),
        lookupKey (matEntities base r.entities).2 n2 = some v → v ≠ base + j := by
      intro n2 v hv hvj
      subst hvj
      have hchar := hunique n2 j (by rw [runPass_entityMap]; exact hv)
      have hnj : (r.entities.get ⟨j, hchar.1⟩).name = n2 :=
        (lastIdxA_name n2 r.entities j hchar.2).2
      have hkn : n2 = k := by rw [← hnj, hname]
      subst hkn
      rw [hchar.2] at hleq
      simp only [Option.some.injEq] at hleq
      omega
    exact ⟨hnotj rel.source e.sourceId hsrc, hnotj rel.target e.targetId htgt⟩

/-- C10 witness: on the duplicate-name example the map resolves `A` to
the second row's id (1, not 0), and no edge endpoint is the first `A`
row's id. -/
theorem dupNameEdgesAttachToLast_witness :
    (0 < dupResult.entities.length) ∧
    lookupKey (runPass 0 dupResult).entityMap "A" = some 1 ∧
    (∀ e ∈ (runPass 0 dupResult).edges, e.sourceId ≠ 0 ∧ e.targetId ≠ 0) := by
  have h := dupNameEdgesAttachToLast 0 dupResult "A" 0 (by decide) rfl
    ⟨1, by decide, by decide, rfl⟩
  exact ⟨by decide, rfl, h.2.2.2⟩

/-! ### C1 and C4: the provider loop under failures -/

/-- A provider error anywhere in the chunk range makes the whole loop
throw (the per-chunk `callAI` is not wrapped in the parse `try`). -/
theorem loopChunks_error (f : Nat → Except PErr String) :
    ∀ (k start i : Nat) (e : PErr), start ≤ i → i < start + k →
      f i = Except.error e →
      ∃ e2, loopChunks f start k = Except.error e2 := by
  intro k
  induction k with
  | zero => intro start i e h1 h2; omega
  | succ k ih =>
    intro start i e h1 h2 hf
    match hs : f start with
    | Except.error e0 => exact ⟨e0, by simp [loopChunks, hs]⟩
    | Except.ok t =>
      have hne : i ≠ start := fun h => by rw [h, hs] at hf; exact absurd hf (by simp)
      obtain ⟨e2, h3⟩ := ih (start + 1) i e (by omega) (by omega) hf
      exact ⟨e2, by simp [loopChunks, hs, h3]⟩

/-- C1 (amended): if any chunk's provider call fails, the pass aborts
before materialization: the pipeline persists no entities and no edges
(whatever earlier chunks parsed is discarded), and the document's final
status is `failed`. -/
theorem providerFailureAborts (budget base : Nat) (content : String)
    (f : Nat → Except PErr String) (i : Nat) (e : PErr)
    (hi : i < (chunkContent budget content).length)
    (hf : f i = Except.error e) :
    (pipeline budget base content f).status = "failed" ∧
    (pipeline budget base content f).rows.entities = [] ∧
    (pipeline budget base content f).rows.edges = [] := by
  obtain ⟨e2, hloop⟩ := loopChunks_error f (chunkContent budget content).length 0 i e
    (Nat.zero_le i) (by omega) hf
  unfold pipeline
  rw [hloop]
  exact ⟨rfl, rfl, rfl⟩

/-- C1 counterexample: a three-chunk document whose chunks 1 and 3 each
parse to one entity; the provider fails on chunk 2, and the pipeline
materializes nothing at all (not the entities of chunks 1 and 3) while
the document is marked failed. -/
theorem providerFailureNothingMaterialized :
    (chunkContent 5 docThree).length = 3 ∧
    (decodeContrib (chunkContrib okJsonA)).entities.length = 1 ∧
    oracleFail2 1 = Except.error ⟨"provider unavailable"⟩ ∧
    (pipeline 5 0 docThree oracleFail2).status = "failed" ∧
    (pipeline 5 0 docThree oracleFail2).rows.entities = [] :=
  ⟨rfl, rfl, rfl, rfl, rfl⟩

/-- C1 witness: the amended theorem applied to the three-chunk document
with the failing second chunk. -/
theorem providerFailureAborts_witness :
    (1 < (chunkContent 5 docThree).length) ∧
    (pipeline 5 0 docThree oracleFail2).status = "failed" ∧
    (pipeline 5 0 docThree oracleFail2).rows.entities = [] :=
  ⟨by decide,
   (providerFailureAborts 5 0 docThree oracleFail2 1 ⟨"provider unavailable"⟩
     (by decide) rfl).1,
   (providerFailureAborts 5 0 docThree oracleFail2 1 ⟨"provider unavailable"⟩
     (by decide) rfl).2.1⟩

/-- A failed parse contributes nothing. -/
theorem chunkContrib_of_parse_fail (t : String) (h : contribParse t = none) :
    chunkContrib t = emptyContrib := by
  unfold chunkContrib
  rw [h]

/-- When every provider call succeeds, the loop returns the ordered
concatenation of all chunk contributions. -/
theorem loopChunks_allOk (resp : Nat → String) :
    ∀ (k start : Nat),
      loopChunks (fun j => Except.ok (resp j)) start k =
        Except.ok (joinContribs ((List.range k).map
          (fun j => chunkContrib (resp (start + j))))) := by
  intro k
  induction k with
  | zero => intro start; rfl
  | succ k ih =>
    intro start
    simp only [loopChunks, ih (start + 1)]
    rw [List.range_succ_eq_map]
    simp only [List.map_cons, Nat.add_zero, List.map_map, joinContribs]
    congr 2
    congr 1
    apply List.map_congr_left
    intro j _
    have harith : start + 1 + j = start + (j + 1) := by omega
    simp only [Function.comp_apply, Nat.succ_eq_add_one, harith]

/-- C4: a parse failure in one chunk's (successful) response does not
abort the extraction: the loop still completes over every chunk in
order, the merged result is the ordered concatenation of all chunk
contributions with the failing chunk contributing nothing, and the
document finishes `extracted`. -/
theorem parseFailureIsLocal (budget base : Nat) (content : String)
    (resp : Nat → String) (i : Nat)
    (hi : i < (chunkContent budget content).length)
    (hfail : contribParse (resp i) = none) :
    (pipeline budget base content (fun j => Except.ok (resp j))).status = "extracted" ∧
    loopChunks (fun j => Except.ok (resp j)) 0 (chunkContent budget content).length =
      Except.ok (joinContribs ((List.range (chunkContent budget content).length).map
        (fun j => chunkContrib (resp j)))) ∧
    chunkContrib (resp i) = emptyContrib := by
  have hloop := loopChunks_allOk resp (chunkContent budget content).length 0
  simp only [Nat.zero_add] at hloop
  refine ⟨?_, hloop, chunkContrib_of_parse_fail _ hfail⟩
  unfold pipeline
  rw [hloop]

/-- C4 witness: a two-chunk document whose first response is unparseable
prose; the pass completes `extracted` and materializes the entity `B`
parsed from the second chunk. -/
theorem parseFailureIsLocal_witness :
    (0 < (chunkContent 5 docTwo).length) ∧
    contribParse (respGarbled 0) = none ∧
    (pipeline 5 0 docTwo (fun j => Except.ok (respGarbled j))).status = "extracted" ∧
    (pipeline 5 0 docTwo (fun j => Except.ok (respGarbled j))).rows.entities.map
      (fun e => e.name) = ["B"] :=
  ⟨by decide, rfl,
   (parseFailureIsLocal 5 0 docTwo respGarbled 0 (by decide) rfl).1, rfl⟩

/-! ### C2: result parsing -/

/-- C2 (amended): the result parser extracts the slice from the first
left brace through the last right brace (the greedy regex match), not
the first balanced block; on the specification's example input the two
notions coincide, the extracted slice is the balanced object, and the
parsed `entities` array is empty while `relationships` holds the nested
object. -/
theorem parserExtractsGreedySlice :
    extractGreedy exampleNoise =
      some "\x7b\"entities\":[],\"relationships\":[\x7b\"a\":1\x7d]\x7d" ∧
    specExtract exampleNoise = extractGreedy exampleNoise ∧
    (chunkContrib exampleNoise).entities = [] ∧
    (chunkContrib exampleNoise).relationships = [Json.obj [("a", Json.num 1)]] :=
  ⟨rfl, rfl, rfl, rfl⟩

/-- C2 counterexample: on a response whose first balanced object is
followed by junk and a further brace pair, the greedy slice is not valid
JSON, so the parser contributes nothing — while a balanced brace-matching
parser (the specification's reading) extracts the first object and its
one entity. The code therefore does not locate the first balanced block
for every raw response. -/
theorem parserNotBraceMatching :
    extractGreedy exampleTwoBlocks ≠ specExtract exampleTwoBlocks ∧
    (chunkContrib exampleTwoBlocks).entities = [] ∧
    (specChunkContrib exampleTwoBlocks).entities.length = 1 :=
  ⟨by decide, rfl, rfl⟩

/-! ### C5: the chunker -/

/-- A nonempty string has positive length. -/
theorem strNe_length_pos (s : String) (h : s ≠ "") : 0 < s.length := by
  cases s with
  | mk data =>
    match data with
    | [] => exact absurd rfl h
    | c :: cs => simp [String.length_mk]

/-- Appending to a nonempty string stays nonempty. -/
theorem strAppend_ne (a b : String) (h : a ≠ "") : a ++ b ≠ "" := by
  intro hc
  apply h
  have hd := congrArg String.data hc
  rw [String.data_append] at hd
  exact String.ext (List.append_eq_nil.mp hd).1

/-- Every chunk the packing loop emits is nonempty and either fits the
budget or is one whole section. -/
theorem packGo_sound (budget : Nat) (S : List String) :
    ∀ (secs : List String) (current : String) (acc : List String),
      (∀ c ∈ acc, c ≠ "" ∧ (c.length ≤ budget ∨ c ∈ S)) →
      (current = "" ∨ current.length ≤ budget ∨ current ∈ S) →
      (∀ s ∈ secs, s ∈ S) →
      ∀ c ∈ packGo budget current secs acc, c ≠ "" ∧ (c.length ≤ budget ∨ c ∈ S) := by
  intro secs
  induction secs with
  | nil =>
    intro current acc hacc hcur _ c hc
    simp only [packGo] at hc
    by_cases h0 : current = ""
    · rw [if_pos h0] at hc; exact hacc c hc
    · rw [if_neg h0] at hc
      rcases List.mem_append.mp hc with h1 | h1
      · exact hacc c h1
      · simp only [List.mem_singleton] at h1
        subst h1
        rcases hcur with h2 | h2
        · exact absurd h2 h0
        · exact ⟨h0, h2⟩
  | cons s rest ih =>
    intro current acc hacc hcur hsecs c hc
    simp only [packGo] at hc
    split at hc
    case isTrue hcond =>
      refine ih s (acc ++ [current]) ?_ ?_ ?_ c hc
      · intro c2 hc2
        rcases List.mem_append.mp hc2 with h1 | h1
        · exact hacc c2 h1
        · simp only [List.mem_singleton] at h1
          subst h1
          have hne : c2 ≠ "" := by
            intro h0
            rw [h0] at hcond
            simp [String.length_empty] at hcond
          rcases hcur with h2 | h2
          · exact absurd h2 hne
          · exact ⟨hne, h2⟩
      · exact Or.inr (Or.inr (hsecs s (List.mem_cons_self _ _)))
      · exact fun s2 hs2 => hsecs s2 (List.mem_cons_of_mem _ hs2)
    case isFalse hcond =>
      refine ih _ acc hacc ?_ (fun s2 hs2 => hsecs s2 (List.mem_cons_of_mem _ hs2)) c hc
      by_cases h0 : current = ""
      · rw [if_pos h0]
        exact Or.inr (Or.inr (hsecs s (List.mem_cons_self _ _)))
      · rw [if_neg h0]
        have hle : (current ++ "\n\n" ++ s).length ≤ budget := by
          by_contra hgt
          exact hcond ⟨by omega, strNe_length_pos current h0⟩
        exact Or.inr (Or.inl hle)

/-- The packing loop emits at least one chunk whenever the accumulator is
already nonempty, the current chunk is nonempty, or some remaining
section is nonempty. -/
theorem packGo_ne_nil (budget : Nat) :
    ∀ (secs : List String) (current : String) (acc : List String),
      (acc ≠ [] ∨ current ≠ "" ∨ ∃ s ∈ secs, s ≠ "") →
      packGo budget current secs acc ≠ [] := by
  intro secs
  induction secs with
  | nil =>
    intro current acc h
    simp only [packGo]
    by_cases h0 : current = ""
    · rw [if_pos h0]
      rcases h with h1 | h1 | h1
      · exact h1
      · exact absurd h0 h1
      · simp at h1
    · rw [if_neg h0]
      simp
  | cons s rest ih =>
    intro current acc h
    simp only [packGo]
    split
    case isTrue hcond =>
      exact ih s (acc ++ [current]) (Or.inl (by simp))
    case isFalse hcond =>
      by_cases h0 : current = ""
      · rw [if_pos h0]
        rcases h with h1 | h1 | h1
        · exact ih s acc (Or.inl h1)
        · exact absurd h0 h1
        · obtain ⟨s2, hs2, hne⟩ := h1
          rcases List.mem_cons.mp hs2 with h2 | h2
          · subst h2
            exact ih s2 acc (Or.inr (Or.inl hne))
          · exact ih s acc (Or.inr (Or.inr ⟨s2, h2, hne⟩))
      · rw [if_neg h0]
        exact ih _ acc (Or.inr (Or.inl (strAppend_ne _ s (strAppend_ne current "\n\n" h0))))

/-- C5 (amended): when the text fits the budget the chunker emits exactly
one chunk, the text itself (an empty chunk exactly when the text is
empty); when the text exceeds the budget, every emitted chunk is
nonempty and either fits the budget or is a single (oversized) paragraph
section emitted on its own, and at least one chunk is emitted provided
some paragraph section of the text is nonempty. -/
theorem chunkerBounds (budget : Nat) (content : String) :
    (content.length ≤ budget → chunkContent budget content = [content]) ∧
    (budget < content.length →
      (∀ c ∈ chunkContent budget content,
        c ≠ "" ∧ (c.length ≤ budget ∨ c ∈ sectionsOf content)) ∧
      ((∃ s ∈ sectionsOf content, s ≠ "") → chunkContent budget content ≠ [])) := by
  constructor
  · intro h
    unfold chunkContent
    rw [if_pos h]
  · intro h
    unfold chunkContent
    rw [if_neg (by omega)]
    constructor
    · exact packGo_sound budget (sectionsOf content) (sectionsOf content) "" []
        (by simp) (Or.inl rfl) (fun s hs => hs)
    · intro hex
      exact packGo_ne_nil budget (sectionsOf content) "" [] (Or.inr (Or.inr hex))

/-- C5 counterexample: on the empty document the chunker emits a single
empty chunk, so it is not the case that no chunk is empty. -/
theorem chunkerEmitsEmptyChunk : chunkContent 5 "" = [""] := rfl

/-- C5 witness: the three-section document exceeds a budget of 5, has a
nonempty section, and the chunker emits a nonempty chunk sequence. -/
theorem chunkerBounds_witness :
    (5 < docThree.length) ∧ (∃ s ∈ sectionsOf docThree, s ≠ "") ∧
    chunkContent 5 docThree ≠ [] :=
  ⟨by decide, by decide, ((chunkerBounds 5 docThree).2 (by decide)).2 (by decide)⟩

/-! ### C7: agent hierarchy -/

/-- Lookup through a value-mapped association list. -/
theorem lookupGrp_mapSnd [DecidableEq κ] (f : List α → List β) (k : κ) :
    ∀ l : List (κ × List α),
      lookupGrp (l.map (fun p => (p.1, f p.2))) k = (lookupGrp l k).map f := by
  intro l
  induction l with
  | nil => simp [lookupGrp]
  | cons q rest ih =>
    obtain ⟨k0, g⟩ := q
    by_cases h0 : k0 = k
    · simp [lookupGrp, h0]
    · simp [lookupGrp, h0, ih]

/-- The type-group table resolves a type to the ids of the created rows
of that type, in creation order. -/
theorem typeGroups_lookup (rows : List EntityRow) (t : String) :
    lookupGrp (typeGroups rows) t =
      (match rows.filter (fun r => r.type = t) with
        | [] => none
        | g => some (g.map (fun r => r.id))) := by
  unfold typeGroups
  rw [lookupGrp_mapSnd, lookupGrp_groupByKey]
  cases hf : rows.filter (fun r => r.type = t) with
  | nil => simp [hf]
  | cons g0 g1 => simp [hf]

/-- Value-mapping an association list keeps its keys. -/
theorem typeGroups_keys (rows : List EntityRow) :
    (typeGroups rows).map Prod.fst =
      (groupByKey (fun r : EntityRow => r.type) rows).map Prod.fst := by
  unfold typeGroups
  rw [List.map_map]
  rfl

/-- The type-group table has duplicate-free keys. -/
theorem typeGroups_keys_nodup (rows : List EntityRow) :
    ((typeGroups rows).map Prod.fst).Nodup := by
  rw [typeGroups_keys]
  exact groupByKey_keys_nodup _ rows

/-- Filtering a key-duplicate-free association list for one key yields
exactly its entry, if any. -/
theorem filter_key_of_nodup [DecidableEq κ] (t : κ) :
    ∀ l : List (κ × List α), (l.map Prod.fst).Nodup →
      l.filter (fun p => p.1 = t) =
        (match lookupGrp l t with
          | some g => [(t, g)]
          | none => []) := by
  intro l
  induction l with
  | nil => intro _; rfl
  | cons q rest ih =>
    obtain ⟨k0, g0⟩ := q
    intro hnd
    simp only [List.map_cons, List.nodup_cons] at hnd
    by_cases h0 : k0 = t
    · subst h0
      have hrest : lookupGrp rest k0 = none := by
        match hx : lookupGrp rest k0 with
        | none => rfl
        | some g2 => exact absurd (List.mem_map_of_mem Prod.fst
            (mem_of_lookupGrp k0 g2 rest hx)) hnd.1
      have hre : rest.filter (fun p => p.1 = k0) = [] := by
        rw [ih hnd.2, hrest]
      simp [List.filter_cons, lookupGrp, hre]
    · simp only [List.filter_cons, lookupGrp, if_neg h0]
      rw [if_neg (by simpa using h0)]
      exact ih hnd.2

/-- Filter length transfers along equal type projections: created rows
carry the merged entities' types, so the per-type group sizes agree. -/
theorem filter_length_of_types (t : String) :
    ∀ (rows : List EntityRow) (es : List EntityIn),
      rows.map (fun r => r.type) = es.map (fun e => e.type) →
      (rows.filter (fun r => r.type = t)).length =
        (es.filter (fun e => e.type = t)).length := by
  intro rows
  induction rows with
  | nil =>
    intro es h
    have : es.map (fun e => e.type) = [] := h.symm
    rw [List.map_eq_nil_iff] at this
    subst this
    rfl
  | cons r rows ih =>
    intro es h
    match es with
    | [] => exact absurd h (by simp)
    | e :: es2 =>
      simp only [List.map_cons, List.cons.injEq] at h
      obtain ⟨h1, h2⟩ := h
      simp only [List.filter_cons, h1]
      by_cases ht : e.type = t
      · simp [ht, ih es2 h2]
      · simp [ht, ih es2 h2]

/-- Every explorer row comes from a major type group, with the derived
name, domain, managed count and coordinator parent. -/
theorem explorerRows_mem : ∀ (gs : List (String × List Nat)) (n c : Nat),
    ∀ a ∈ explorerRows gs n c, ∃ p ∈ gs, a.role = "explorer" ∧
      a.domain = some p.1 ∧ a.name = capitalize p.1 ++ " Explorer" ∧
      a.entitiesManaged = p.2.length ∧ a.parentAgentId = some c := by
  intro gs
  induction gs with
  | nil => intro n c a ha; simp [explorerRows] at ha
  | cons p rest ih =>
    obtain ⟨t, ids⟩ := p
    intro n c a ha
    rcases List.mem_cons.mp ha with h1 | h1
    · subst h1
      exact ⟨(t, ids), List.mem_cons_self _ _, rfl, rfl, rfl, rfl, rfl⟩
    · obtain ⟨p2, hp2, hrest⟩ := ih (n + 1) c a h1
      exact ⟨p2, List.mem_cons_of_mem _ hp2, hrest⟩

/-- The explorers with a given domain are in bijection with the group
entries carrying that key. -/
theorem explorerRows_filter_dom (t : String) :
    ∀ (gs : List (String × List Nat)) (n c : Nat),
      ((explorerRows gs n c).filter
        (fun a => a.role = "explorer" ∧ a.domain = some t)).length =
      (gs.filter (fun p => p.1 = t)).length := by
  intro gs
  induction gs with
  | nil => intro n c; rfl
  | cons p rest ih =>
    obtain ⟨t0, ids⟩ := p
    intro n c
    simp only [explorerRows, List.filter_cons]
    by_cases h0 : t0 = t
    · subst h0
      have ih2 := ih (n + 1) c
      simp at ih2 ⊢
      exact ih2
    · have ih2 := ih (n + 1) c
      simp at ih2 ⊢
      simp [h0, ih2]

/-- The agents of a pass are one coordinator row followed by explorer
rows over the major type groups, for some id offset. -/
theorem runPass_agents_ex (base : Nat) (r : ExtractionResult) :
    ∃ n5, (runPass base r).agents =
      coordRow n5 (matEntities base r.entities).1.length ::
        explorerRows ((typeGroups (matEntities base r.entities).1).filter
          (fun p => 3 ≤ p.2.length)) (n5 + 1) n5 := ⟨_, rfl⟩

/-- The pass persists one entity row per merged entity (with backfill). -/
theorem runPass_entities_length (base : Nat) (r : ExtractionResult) :
    (runPass base r).entities.length = (matEntities base r.entities).1.length := by
  obtain ⟨tmap, hEq⟩ := runPass_entities_ex base r
  rw [hEq, backfill_length]

/-- C7: each pass creates exactly one coordinator agent, managing all
entities materialized in the pass; and for each entity type exactly one
explorer agent when the type group has at least 3 entities (none
otherwise), named `<Type> Explorer`, with the type as domain, the group
size as managed count, and the pass coordinator as parent. -/
theorem agentHierarchyPerPass (base : Nat) (r : ExtractionResult) :
    ((runPass base r).agents.filter (fun a => a.role = "coordinator")).length = 1 ∧
    (∀ a ∈ (runPass base r).agents, a.role = "coordinator" →
      a.name = "System Coordinator" ∧
      a.entitiesManaged = (runPass base r).entities.length) ∧
    (∀ t : String,
      ((runPass base r).agents.filter
        (fun a => a.role = "explorer" ∧ a.domain = some t)).length =
      if 3 ≤ (r.entities.filter (fun e => e.type = t)).length then 1 else 0) ∧
    (∀ a ∈ (runPass base r).agents, a.role = "explorer" →
      ∃ t, a.domain = some t ∧
        3 ≤ (r.entities.filter (fun e => e.type = t)).length ∧
        a.name = capitalize t ++ " Explorer" ∧
        a.entitiesManaged = (r.entities.filter (fun e => e.type = t)).length ∧
        ∃ coord ∈ (runPass base r).agents, coord.role = "coordinator" ∧
          a.parentAgentId = some coord.id) := by
  obtain ⟨n5, hA⟩ := runPass_agents_ex base r
  have hrows_types : (matEntities base r.entities).1.map (fun r2 => r2.type) =
      r.entities.map (fun e => e.type) := by
    have h := matLoop_types r.entities base ([], [])
    simpa [matEntities_def] using h
  have hcount : ∀ t : String,
      ((matEntities base r.entities).1.filter (fun r2 => r2.type = t)).length =
        (r.entities.filter (fun e => e.type = t)).length :=
    fun t => filter_length_of_types t _ _ hrows_types
  have hexp : ∀ a ∈ explorerRows
      ((typeGroups (matEntities base r.entities).1).filter
        (fun p => 3 ≤ p.2.length)) (n5 + 1) n5, a.role = "explorer" := by
    intro a ha
    obtain ⟨p, _, hrole, _⟩ := explorerRows_mem _ _ _ a ha
    exact hrole
  have hgrp_count : ∀ (t : String) (g : List Nat),
      lookupGrp (typeGroups (matEntities base r.entities).1) t = some g →
      g.length = (r.entities.filter (fun e => e.type = t)).length := by
    intro t g hlg
    have htg := typeGroups_lookup (matEntities base r.entities).1 t
    rw [hlg] at htg
    cases hf : (matEntities base r.entities).1.filter (fun r2 => r2.type = t) with
    | nil => rw [hf] at htg; exact absurd htg (by simp)
    | cons g0 g1 =>
      rw [hf] at htg
      simp only [Option.some.injEq] at htg
      rw [htg]
      rw [← hcount t, hf]
      simp
  refine ⟨?_, ?_, ?_, ?_⟩
  · rw [hA]
    have htail : (explorerRows ((typeGroups (matEntities base r.entities).1).filter
        (fun p => 3 ≤ p.2.length)) (n5 + 1) n5).filter
          (fun a => a.role = "coordinator") = [] := by
      rw [List.filter_eq_nil_iff]
      intro a ha
      simp [hexp a ha]
    simp [List.filter_cons, coordRow, htail]
  · intro a ha hrole
    rw [hA] at ha
    rcases List.mem_cons.mp ha with h1 | h1
    · subst h1
      exact ⟨rfl, by rw [runPass_entities_length]; rfl⟩
    · exact absurd ((hexp a h1).symm.trans hrole) (by decide)
  · intro t
    rw [hA]
    have hcoord_skip : ¬((coordRow n5 (matEntities base r.entities).1.length).role
        = "explorer" ∧ (coordRow n5 (matEntities base r.entities).1.length).domain
        = some t) := by
      intro hcontra
      exact absurd (show ("coordinator" : String) = "explorer" from hcontra.1) (by decide)
    rw [List.filter_cons, if_neg (by simpa using hcoord_skip)]
    rw [explorerRows_filter_dom]
    have hcomm : ((typeGroups (matEntities base r.entities).1).filter
          (fun p => 3 ≤ p.2.length)).filter (fun p => p.1 = t) =
        ((typeGroups (matEntities base r.entities).1).filter
          (fun p => p.1 = t)).filter (fun p => 3 ≤ p.2.length) := by
      simp only [List.filter_filter]
      apply List.filter_congr
      intro p _
      rw [Bool.and_comm]
    rw [hcomm, filter_key_of_nodup t _ (typeGroups_keys_nodup _)]
    cases hlg : lookupGrp (typeGroups (matEntities base r.entities).1) t with
    | none =>
      have htg := typeGroups_lookup (matEntities base r.entities).1 t
      rw [hlg] at htg
      cases hf : (matEntities base r.entities).1.filter (fun r2 => r2.type = t) with
      | cons g0 g1 => rw [hf] at htg; exact absurd htg (by simp)
      | nil =>
        have hc0 : (r.entities.filter (fun e => e.type = t)).length = 0 := by
          rw [← hcount t, hf]
          rfl
        rw [hc0]
        simp
    | some g =>
      have hg := hgrp_count t g hlg
      rw [← hg]
      by_cases h3 : 3 ≤ g.length
      · rw [if_pos h3]
        simp [List.filter_cons, h3]
      · rw [if_neg h3]
        simp [List.filter_cons, h3]
  · intro a ha hrole
    rw [hA] at ha
    rcases List.mem_cons.mp ha with h1 | h1
    · subst h1
      exact absurd (show ("coordinator" : String) = "explorer" from hrole) (by decide)
    · obtain ⟨p, hp, _, hdom, hname2, hem, hpar⟩ := explorerRows_mem _ _ _ a h1
      obtain ⟨hpg, hq⟩ := List.mem_filter.mp hp
      have hq2 : 3 ≤ p.2.length := by simpa using hq
      have hlook : lookupGrp (typeGroups (matEntities base r.entities).1) p.1 =
          some p.2 :=
        lookupGrp_of_mem p.1 p.2 _ hpg (typeGroups_keys_nodup _)
      have hg := hgrp_count p.1 p.2 hlook
      refine ⟨p.1, hdom, by omega, hname2, by rw [hem, hg], ?_⟩
      refine ⟨coordRow n5 (matEntities base r.entities).1.length, ?_, rfl, ?_⟩
      · rw [hA]; exact List.mem_cons_self _ _
      · rw [hpar]; rfl

/-- C7 witness: on the pass with type-group sizes person 5, goal 2,
team 4, there is exactly one coordinator, explorers exist for person and
team, and none for goal. -/
theorem agentHierarchyPerPass_witness :
    (((runPass 0 hierResult).agents.filter
      (fun a => a.role = "coordinator")).length = 1) ∧
    ((runPass 0 hierResult).agents.filter
      (fun a => a.role = "explorer" ∧ a.domain = some "person")).length = 1 ∧
    ((runPass 0 hierResult).agents.filter
      (fun a => a.role = "explorer" ∧ a.domain = some "goal")).length = 0 ∧
    ((runPass 0 hierResult).agents.filter
      (fun a => a.role = "explorer" ∧ a.domain = some "team")).length = 1 := by
  refine ⟨(agentHierarchyPerPass 0 hierResult).1, ?_, ?_, ?_⟩
  · rw [(agentHierarchyPerPass 0 hierResult).2.2.1 "person"]
    decide
  · rw [(agentHierarchyPerPass 0 hierResult).2.2.1 "goal"]
    decide
  · rw [(agentHierarchyPerPass 0 hierResult).2.2.1 "team"]
    decide
